import Mathlib

/-!
testctx: contexts bound to the life of a test

A verification development for `testctx.go` (package `testctx`).

The package is five small functions over two package-level variables
(`defaultTimeout`, `pkgCtx`) and the standard `context` package.  The
development has three layers of definitions:

* `Context`, `World`, `context.WithDeadline`, ...: the part of Go's standard
  `context` package the source calls (`context.Background`,
  `context.WithTimeout` and the cancel function it returns), with an explicit
  clock.
* `Pkg`, `defaults`, `SetDefaultTimeout`, `New`, `WithTimeout`, `WithParent`,
  `WithCancel`: the source, function by function, in state-passing style.  A
  call returns its value or the panic it ended in, together with the state it
  left behind.
* `Event`, `World.run`, `Call`, `execAll`: what can happen after a call, to
  state facts about every later stage of the world and every reachable state
  of the package.

What the model takes from the environment:

* A context value is `Background`, a `cancelCtx` or a `timerCtx` (what
  `context.WithTimeout` builds from `Background`); the nil value of the
  interface type `context.Context` is `none`.  Contexts of other
  implementations are outside the model.
* A `time.Time` is a point on the integer line of nanoseconds and
  `time.Now().Add(timeout)` is exact.  The clock advances only by `elapse`,
  and a timer goes off as soon as the clock has reached its deadline: no time
  passes inside a call and there is no scheduling delay.
* A handle (`Cleaner`) is an object with a state of its own; `Cleanup` either
  panics or records the callback in that state.  It does not call the callback
  while registering it and does not write the package-level variables.
* The lock `mtx` is taken and released inside `defaults` and
  `SetDefaultTimeout`; executions here are sequential, the lock is free before
  and after every call, and it is not part of the state.
-/

namespace testctx

/-! ## Time -/

/-- An instant (`time.Time`), in nanoseconds on an integer line. -/
abbrev Time := Int

/-- A `time.Duration`: a signed count of nanoseconds. -/
abbrev Duration := Int

/-- The constant `time.Minute`, in nanoseconds. -/
def Minute : Duration := 60 * 1000000000

/-- The value a Go `panic` carries. -/
abbrev Fault := String

/-! ## The `context` package -/

/-- The two errors `Context.Err` can report. -/
inductive CtxErr
  | Canceled
  | DeadlineExceeded
deriving DecidableEq, Repr

/-- The immutable part of a context value: which context it was derived from
and, for a `timerCtx`, the deadline it was given.  `id` is the identity of the
allocated object; the mutable `err` field lives in the `World`. -/
inductive Context
  | background
  | cancelCtx (id : Nat) (parent : Context)
  | timerCtx (id : Nat) (parent : Context) (deadline : Time)
deriving DecidableEq, Repr

namespace Context

/-- The identity of the allocated object (`Background` is not allocated). -/
def slot : Context → Option Nat
  | background => none
  | cancelCtx id _ => some id
  | timerCtx id _ _ => some id

/-- The context this one was derived from. -/
def parent? : Context → Option Context
  | background => none
  | cancelCtx _ p => some p
  | timerCtx _ p _ => some p

/-- The method `Deadline()`: a `timerCtx` reports its own deadline, a
`cancelCtx` delegates to the context it embeds, `Background` has none. -/
def Deadline : Context → Option Time
  | background => none
  | cancelCtx _ p => p.Deadline
  | timerCtx _ _ d => some d

/-- Whether the object `j` is this context or one of the contexts it descends
from: cancelling `j` reaches exactly these contexts. -/
def under (j : Nat) : Context → Bool
  | background => false
  | cancelCtx id p => id == j || p.under j
  | timerCtx id p _ => id == j || p.under j

end Context

/-- One allocated context: its immutable value and its `err` field
(`none` is Go's `nil`: not yet cancelled). -/
structure Node where
  ctx : Context
  err : Option CtxErr
deriving DecidableEq, Repr

/-- The runtime state the `context` package works on: the clock and every
context allocated so far, in allocation order (object `i` is at index `i`). -/
structure World where
  now : Time
  nodes : List Node
deriving DecidableEq, Repr

/-- The function value returned by `context.WithTimeout` next to the context
`c`: the closure whose body is `c.cancel(true, Canceled, nil)`, kept as the
identity of the context it captures. -/
structure CancelFunc where
  target : Nat
deriving DecidableEq, Repr

namespace World

/-- A world with no context allocated yet, at time `t`. -/
def boot (t : Time) : World := ⟨t, []⟩

/-- The method `Err()`: `none` while the context is active. -/
def Err (w : World) (c : Context) : Option CtxErr :=
  match c.slot with
  | none => none
  | some i =>
    match w.nodes[i]? with
    | none => none
    | some n => n.err

/-- Whether `c` is an allocated context of this world. -/
def has (w : World) (c : Context) : Bool :=
  match c.slot with
  | none => false
  | some i =>
    match w.nodes[i]? with
    | none => false
    | some n => n.ctx == c

/-- Whether `c` is a context value that exists in this world: `Background` or
an allocated context. -/
def live (w : World) (c : Context) : Bool :=
  c == Context.background || w.has c

/-- A newly allocated object is added to the world. -/
def push (w : World) (n : Node) : World :=
  { w with nodes := w.nodes ++ [n] }

/-- The effect of `cancel` on one node: an active context under `j` takes the
error. -/
def mark (j : Nat) (e : CtxErr) (n : Node) : Node :=
  if n.err.isNone && n.ctx.under j then { n with err := some e } else n

/-- The method `c.cancel(_, e, _)` on object `j`: nothing happens when `j` is
already cancelled; otherwise `j` takes the error `e` and so does every active
context derived from it. -/
def cancel (w : World) (j : Nat) (e : CtxErr) : World :=
  match w.nodes[j]? with
  | none => w
  | some n =>
    if n.err.isSome then w
    else { w with nodes := w.nodes.map (mark j e) }

/-- The timers that are due at time `t` go off, one context after the other:
each `timerCtx` of the list whose deadline is not after `t` cancels itself
with `DeadlineExceeded`. -/
def fire (t : Time) : List Node → World → World
  | [], w => w
  | n :: ns, w =>
    match n.ctx with
    | Context.timerCtx id _ d =>
      if d ≤ t then fire t ns (w.cancel id CtxErr.DeadlineExceeded) else fire t ns w
    | _ => fire t ns w

/-- The clock advances by `dt` nanoseconds and the timers due by then fire. -/
def elapse (w : World) (dt : Nat) : World :=
  fire (w.now + dt) w.nodes { w with now := w.now + dt }

end World

/-- Calling a cancel function. -/
def CancelFunc.call (f : CancelFunc) (w : World) : World :=
  w.cancel f.target CtxErr.Canceled

namespace context

/-- The function `context.WithCancel(parent)` for a non-nil parent: a new
`cancelCtx`, cancelled at once with the parent's error when the parent is
already cancelled. -/
def WithCancel (w : World) (parent : Context) : Context × CancelFunc × World :=
  let id := w.nodes.length
  let c := Context.cancelCtx id parent
  (c, ⟨id⟩, w.push ⟨c, w.Err parent⟩)

/-- The function `context.WithDeadline(parent, d)`.  A nil parent (`none`)
panics.  When the parent's deadline is already sooner than `d` the result is
`WithCancel(parent)`.  Otherwise a new `timerCtx` with deadline `d`, cancelled
at once with the parent's error when the parent is already cancelled, and
cancelled at once with `DeadlineExceeded` when `d` has already passed. -/
def WithDeadline (w : World) (parent : Option Context) (d : Time) :
    Except Fault (Context × CancelFunc × World) :=
  match parent with
  | none => .error "cannot create context from nil parent"
  | some p =>
    if (match p.Deadline with
        | some cur => decide (cur < d)
        | none => false) then
      .ok (WithCancel w p)
    else
      let id := w.nodes.length
      let c := Context.timerCtx id p d
      let w1 : World := w.push ⟨c, w.Err p⟩
      if d - w.now ≤ 0 then
        .ok (c, ⟨id⟩, w1.cancel id CtxErr.DeadlineExceeded)
      else
        .ok (c, ⟨id⟩, w1)

/-- The function `context.WithTimeout(parent, timeout)`, which is
`WithDeadline(parent, time.Now().Add(timeout))`. -/
def WithTimeout (w : World) (parent : Option Context) (timeout : Duration) :
    Except Fault (Context × CancelFunc × World) :=
  WithDeadline w parent (w.now + timeout)

end context

/-! ## The package -/

/-- The package-level variables `defaultTimeout` and `pkgCtx`.  `pkgCtx` has
the interface type `context.Context`, whose nil value is `none`. -/
structure Pkg where
  defaultTimeout : Duration
  pkgCtx : Option Context
deriving DecidableEq, Repr

/-- The initial values of the package-level variables:
`defaultTimeout = 3 * time.Minute`, `pkgCtx = context.Background()`. -/
def Pkg.init : Pkg := ⟨3 * Minute, some Context.background⟩

/-- Everything the package's functions read and write: the package-level
variables and the runtime state of the `context` package. -/
structure St where
  pkg : Pkg
  world : World
deriving DecidableEq, Repr

/-- The interface `Cleaner`: one method `Cleanup(func())`.  `τ` is the state of
the object behind the interface; `Cleanup` takes the callback and the object's
state and either panics or leaves the object in a new state. -/
structure Cleaner (τ : Type) where
  Cleanup : CancelFunc → τ → Except Fault τ

/-- What a call leaves behind: the value it returned, or the panic it ended
in, together with the handle and the state after the call. -/
structure Ret (α τ : Type) where
  val : Except Fault α
  handle : τ
  st : St

/-- The function `defaults`: the stored parent and timeout. -/
def defaults (s : Pkg) : Option Context × Duration :=
  (s.pkgCtx, s.defaultTimeout)

/-- The function `SetDefaultTimeout`: panics on a negative duration, otherwise
stores it.  The second component is the package state after the call, also
when the call panicked. -/
def SetDefaultTimeout (t : Duration) (s : Pkg) : Except Fault Unit × Pkg :=
  if t < 0 then
    (.error "negative duration", s)
  else
    (.ok (), { s with defaultTimeout := t })

/-- The function `New`:
`parent, timeout := defaults()`,
`ctx, cancel := context.WithTimeout(parent, timeout)`,
`t.Cleanup(cancel)`, `return ctx`. -/
def New {τ : Type} (h : Cleaner τ) (t : τ) (s : St) : Ret Context τ :=
  let (parent, timeout) := defaults s.pkg
  match context.WithTimeout s.world parent timeout with
  | .error e => ⟨.error e, t, s⟩
  | .ok (ctx, cancel, w1) =>
    match h.Cleanup cancel t with
    | .error e => ⟨.error e, t, { s with world := w1 }⟩
    | .ok t1 => ⟨.ok ctx, t1, { s with world := w1 }⟩

/-- The function `WithTimeout`:
`parent, _ := defaults()`,
`ctx, cancel := context.WithTimeout(parent, timeout)`,
`t.Cleanup(cancel)`, `return ctx`. -/
def WithTimeout {τ : Type} (h : Cleaner τ) (t : τ) (timeout : Duration) (s : St) :
    Ret Context τ :=
  let (parent, _) := defaults s.pkg
  match context.WithTimeout s.world parent timeout with
  | .error e => ⟨.error e, t, s⟩
  | .ok (ctx, cancel, w1) =>
    match h.Cleanup cancel t with
    | .error e => ⟨.error e, t, { s with world := w1 }⟩
    | .ok t1 => ⟨.ok ctx, t1, { s with world := w1 }⟩

/-- The function `WithParent`:
`_, timeout := defaults()`,
`ctx, cancel := context.WithTimeout(parent, timeout)`,
`t.Cleanup(cancel)`, `return ctx`. -/
def WithParent {τ : Type} (h : Cleaner τ) (t : τ) (parent : Option Context) (s : St) :
    Ret Context τ :=
  let (_, timeout) := defaults s.pkg
  match context.WithTimeout s.world parent timeout with
  | .error e => ⟨.error e, t, s⟩
  | .ok (ctx, cancel, w1) =>
    match h.Cleanup cancel t with
    | .error e => ⟨.error e, t, { s with world := w1 }⟩
    | .ok t1 => ⟨.ok ctx, t1, { s with world := w1 }⟩

/-- The function `WithCancel`:
`parent, timeout := defaults()`,
`ctx, cancel := context.WithTimeout(parent, timeout)`,
`t.Cleanup(cancel)`, `return ctx, cancel`. -/
def WithCancel {τ : Type} (h : Cleaner τ) (t : τ) (s : St) :
    Ret (Context × CancelFunc) τ :=
  let (parent, timeout) := defaults s.pkg
  match context.WithTimeout s.world parent timeout with
  | .error e => ⟨.error e, t, s⟩
  | .ok (ctx, cancel, w1) =>
    match h.Cleanup cancel t with
    | .error e => ⟨.error e, t, { s with world := w1 }⟩
    | .ok t1 => ⟨.ok (ctx, cancel), t1, { s with world := w1 }⟩

/-- The two statements the four constructors share,
`ctx, cancel := context.WithTimeout(parent, timeout); t.Cleanup(cancel)`,
with both `ctx` and `cancel` as the result.  The constructors above do not use
it; the proofs reason about it once (`New_eq`, `WithTimeout_eq`,
`WithParent_eq`, `WithCancel_eq`). -/
def derive {τ : Type} (h : Cleaner τ) (t : τ) (s : St) (parent : Option Context)
    (timeout : Duration) : Ret (Context × CancelFunc) τ :=
  match context.WithTimeout s.world parent timeout with
  | .error e => ⟨.error e, t, s⟩
  | .ok (ctx, cancel, w1) =>
    match h.Cleanup cancel t with
    | .error e => ⟨.error e, t, { s with world := w1 }⟩
    | .ok t1 => ⟨.ok (ctx, cancel), t1, { s with world := w1 }⟩

/-- Keeps the context of a `(ctx, cancel)` result. -/
def Ret.ctxOnly {τ : Type} (r : Ret (Context × CancelFunc) τ) : Ret Context τ :=
  ⟨r.val.map Prod.fst, r.handle, r.st⟩

/-! ## Handles and traces -/

/-- A handle in the manner of `testing.T`: `Cleanup` pushes the callback on a
stack and never panics. -/
def recorder : Cleaner (List CancelFunc) := ⟨fun f t => .ok (f :: t)⟩

/-- The teardown of a `recorder` handle: the registered callbacks are called
once each, the one registered last first. -/
def runCleanups : List CancelFunc → World → World
  | [], w => w
  | f :: fs, w => runCleanups fs (f.call w)

/-- What can happen to the world of contexts after a context was made: the
clock advances, a cancel function is called, somebody derives a context from
an existing one. -/
inductive Event
  | elapse (dt : Nat)
  | call (f : CancelFunc)
  | withTimeout (parent : Context) (timeout : Duration)
  | withCancel (parent : Context)
deriving DecidableEq, Repr

/-- One event.  Deriving from a context value that does not exist in the world
is not an event. -/
def World.step (w : World) : Event → World
  | .elapse dt => w.elapse dt
  | .call f => f.call w
  | .withTimeout p d =>
    if w.live p then
      match context.WithTimeout w (some p) d with
      | .ok (_, _, w1) => w1
      | .error _ => w
    else w
  | .withCancel p =>
    if w.live p then (context.WithCancel w p).2.2 else w

/-- A sequence of events, first to last. -/
def World.run (w : World) : List Event → World
  | [] => w
  | e :: es => (w.step e).run es

/-- A handle together with the state the package works on. -/
structure Sys (τ : Type) where
  handle : τ
  st : St

/-- A use of the package, or an event in the world of contexts. -/
inductive Call
  | SetDefaultTimeout (t : Duration)
  | New
  | WithTimeout (timeout : Duration)
  | WithParent (parent : Option Context)
  | WithCancel
  | env (e : Event)
deriving DecidableEq, Repr

/-- One call.  The value it returns is dropped and a panic it ends in is
recovered: what is kept is the state it leaves behind. -/
def exec {τ : Type} (h : Cleaner τ) (x : Sys τ) : Call → Sys τ
  | .SetDefaultTimeout t => ⟨x.handle, { x.st with pkg := (SetDefaultTimeout t x.st.pkg).2 }⟩
  | .New => ⟨(New h x.handle x.st).handle, (New h x.handle x.st).st⟩
  | .WithTimeout d => ⟨(WithTimeout h x.handle d x.st).handle, (WithTimeout h x.handle d x.st).st⟩
  | .WithParent p => ⟨(WithParent h x.handle p x.st).handle, (WithParent h x.handle p x.st).st⟩
  | .WithCancel => ⟨(WithCancel h x.handle x.st).handle, (WithCancel h x.handle x.st).st⟩
  | .env e => ⟨x.handle, { x.st with world := x.st.world.step e }⟩

/-- A sequence of calls, first to last. -/
def execAll {τ : Type} (h : Cleaner τ) (x : Sys τ) : List Call → Sys τ
  | [] => x
  | c :: cs => execAll h (exec h x c) cs

/-- Whether a call is a call of `SetDefaultTimeout`. -/
def Call.isSet : Call → Bool
  | .SetDefaultTimeout _ => true
  | _ => false

/-! ## Well-formed worlds -/

/-- The shape of a world of contexts: object `i` sits at index `i`, every
context was derived from a context of the same world, and a context whose
parent is cancelled is cancelled. -/
structure World.Tree (w : World) : Prop where
  slot : ∀ (i : Nat) (n : Node), w.nodes[i]? = some n → n.ctx.slot = some i
  anc : ∀ (i : Nat) (n : Node) (p : Context), w.nodes[i]? = some n → n.ctx.parent? = some p → w.live p = true
  down : ∀ (i : Nat) (n : Node) (p : Context), w.nodes[i]? = some n → n.ctx.parent? = some p → w.Err p ≠ none →
    n.err ≠ none

/-- No timer is overdue: a context whose deadline has been reached is
cancelled. -/
def World.Timely (w : World) : Prop :=
  ∀ (i : Nat) (n : Node) (d : Time), w.nodes[i]? = some n → n.ctx.Deadline = some d → d ≤ w.now → n.err ≠ none

/-- A well-formed world. -/
structure World.WF (w : World) : Prop where
  tree : w.Tree
  timely : w.Timely

/-- The world `w2` is a later stage of `w1`: the clock has not gone back, every
context of `w1` is still there, and an error once set is still the same. -/
def World.le (w1 w2 : World) : Prop :=
  w1.now ≤ w2.now ∧
  ∀ (i : Nat) (n : Node), w1.nodes[i]? = some n →
    ∃ n2, w2.nodes[i]? = some n2 ∧ n2.ctx = n.ctx ∧ (n.err ≠ none → n2.err = n.err)

/-! ## Properties stated about a call -/

/-- The deadline of the timer a context owns, if it owns one. -/
def Context.timer? : Context → Option Time
  | Context.timerCtx _ _ d => some d
  | _ => none

/-- Everything the later proofs use about a context `c` that
`context.WithDeadline(p, d)` returned in world `w`, leaving world `w1`. -/
structure Fresh (w : World) (p : Context) (d : Time) (c : Context) (w1 : World) : Prop where
  slot : c.slot = some w.nodes.length
  parent : c.parent? = some p
  has : w1.has c = true
  now : w1.now = w.now
  le : w.le w1
  deadline : ∃ D, c.Deadline = some D ∧ D ≤ d
  sooner : ∀ cur, p.Deadline = some cur → cur < d → c.Deadline = some cur
  later : (∀ cur, p.Deadline = some cur → d ≤ cur) → c.Deadline = some d
  timer : ∀ D, c.timer? = some D → D = d
  exact : p.Deadline = none → c = Context.timerCtx w.nodes.length p d
  active : w.Err p = none → w.now < d → w1.Err c = none
  root : p = Context.background → w1.Err c = none ∨ w1.Err c = some CtxErr.DeadlineExceeded
  tree : w.Tree → w.live p = true → w1.Tree
  wf : w.WF → w.live p = true → w1.WF

/-- The property of claim C3 for one constructor call with result `r` on a
handle in state `t`: if the call returned a context, the handle is in the
state `Cleanup(f)` left it in, where `f` is the cancel function of the
returned context, and calling `f` at any later stage of the world leaves the
returned context cancelled. -/
def CleanupCancels {τ : Type} (h : Cleaner τ) (t : τ) (r : Ret Context τ) : Prop :=
  ∀ ctx, r.val = .ok ctx →
    ∃ f : CancelFunc, h.Cleanup f t = .ok r.handle ∧ ctx.slot = some f.target ∧
      r.st.world.has ctx = true ∧
      ∀ es : List Event, (f.call (r.st.world.run es)).Err ctx ≠ none

/-- The property of claim C3 for a call on a `recorder` handle: the call
returned a context, and the teardown of the handle at any later stage of the
world leaves that context cancelled. -/
def TeardownCancels (r : Ret Context (List CancelFunc)) : Prop :=
  ∃ ctx, r.val = .ok ctx ∧
    ∀ es : List Event, (runCleanups r.handle (r.st.world.run es)).Err ctx ≠ none

/-- The property of claim C5 for one call with result `r`, made in world `w`
with timeout `d`: the returned context has deadline `w.now + d`; through any
later events without a call of its cancel function it is active while the
clock is before the deadline and reports `DeadlineExceeded` once the clock has
reached it; through any later events at all it is cancelled once the clock has
reached the deadline; and with `d = 0` it is already cancelled when the call
returns. -/
def DeadlineCorrect {τ : Type} (w : World) (d : Duration) (r : Ret Context τ) : Prop :=
  ∀ ctx, r.val = .ok ctx →
    ctx.Deadline = some (w.now + d) ∧
    (∀ es : List Event, (∀ e ∈ es, e ≠ Event.call ⟨w.nodes.length⟩) →
      ((r.st.world.run es).now < w.now + d → (r.st.world.run es).Err ctx = none) ∧
      (w.now + d ≤ (r.st.world.run es).now →
        (r.st.world.run es).Err ctx = some CtxErr.DeadlineExceeded)) ∧
    (∀ es : List Event, w.now + d ≤ (r.st.world.run es).now →
      (r.st.world.run es).Err ctx ≠ none) ∧
    (d = 0 → r.st.world.Err ctx = some CtxErr.DeadlineExceeded)

/-! ## Basic facts about `cancel` -/

theorem mark_ctx (j : Nat) (e : CtxErr) (n : Node) : (World.mark j e n).ctx = n.ctx := by
  unfold World.mark
  split <;> rfl

theorem mark_of_err (j : Nat) (e : CtxErr) (n : Node) (h : n.err ≠ none) :
    World.mark j e n = n := by
  unfold World.mark
  cases hn : n.err with
  | none => exact absurd hn h
  | some x => simp

theorem mark_of_not_under (j : Nat) (e : CtxErr) (n : Node) (h : n.ctx.under j = false) :
    World.mark j e n = n := by
  unfold World.mark
  simp [h]

theorem mark_err_of_under (j : Nat) (e : CtxErr) (n : Node) (h : n.ctx.under j = true) :
    (World.mark j e n).err ≠ none := by
  unfold World.mark
  cases hn : n.err with
  | none => simp [h]
  | some x => simp [hn]

theorem mark_err_mono (j : Nat) (e : CtxErr) (n : Node) (h : n.err ≠ none) :
    (World.mark j e n).err = n.err := by
  rw [mark_of_err j e n h]

theorem cancel_now (w : World) (j : Nat) (e : CtxErr) : (w.cancel j e).now = w.now := by
  unfold World.cancel
  split
  · rfl
  · split <;> rfl

theorem cancel_cases (w : World) (j : Nat) (e : CtxErr) :
    w.cancel j e = w ∨
    (∃ n, w.nodes[j]? = some n ∧ n.err = none ∧
      w.cancel j e = { w with nodes := w.nodes.map (World.mark j e) }) := by
  unfold World.cancel
  cases hj : w.nodes[j]? with
  | none => left; rfl
  | some n =>
    cases hn : n.err with
    | none => right; exact ⟨n, rfl, hn, by simp [hn]⟩
    | some x => left; simp [hn]

theorem cancel_get (w : World) (j : Nat) (e : CtxErr) (i : Nat) (n : Node)
    (h : w.nodes[i]? = some n) :
    (w.cancel j e).nodes[i]? = some n ∨ (w.cancel j e).nodes[i]? = some (World.mark j e n) := by
  rcases cancel_cases w j e with hc | ⟨m, _, _, hc⟩
  · left; rw [hc]; exact h
  · right; rw [hc]; simp [List.getElem?_map, h]

theorem cancel_get_inv (w : World) (j : Nat) (e : CtxErr) (i : Nat) (n2 : Node)
    (h : (w.cancel j e).nodes[i]? = some n2) :
    ∃ n, w.nodes[i]? = some n ∧ (n2 = n ∨ n2 = World.mark j e n) := by
  rcases cancel_cases w j e with hc | ⟨m, _, _, hc⟩
  · rw [hc] at h; exact ⟨n2, h, Or.inl rfl⟩
  · rw [hc] at h
    simp only [List.getElem?_map] at h
    cases hi : w.nodes[i]? with
    | none => simp [hi] at h
    | some n =>
      simp [hi] at h
      exact ⟨n, rfl, Or.inr h.symm⟩

theorem cancel_length (w : World) (j : Nat) (e : CtxErr) :
    (w.cancel j e).nodes.length = w.nodes.length := by
  rcases cancel_cases w j e with hc | ⟨m, _, _, hc⟩
  · rw [hc]
  · rw [hc]; simp

/-- Cancelling an allocated object leaves it cancelled. -/
theorem cancel_sets (w : World) (j : Nat) (e : CtxErr) (n : Node)
    (h : w.nodes[j]? = some n) (hs : n.ctx.slot = some j) :
    ∃ n2, (w.cancel j e).nodes[j]? = some n2 ∧ n2.ctx = n.ctx ∧ n2.err ≠ none := by
  have hu : n.ctx.under j = true := by
    cases hc : n.ctx with
    | background => rw [hc] at hs; simp [Context.slot] at hs
    | cancelCtx id p => rw [hc] at hs; simp [Context.slot] at hs; simp [Context.under, hs]
    | timerCtx id p d => rw [hc] at hs; simp [Context.slot] at hs; simp [Context.under, hs]
  rcases cancel_cases w j e with hc | ⟨m, hm, hmn, hc⟩
  · refine ⟨n, by rw [hc]; exact h, rfl, ?_⟩
    -- the call returned early: `j` was already cancelled
    unfold World.cancel at hc
    rw [h] at hc
    cases hn : n.err with
    | some x => simp
    | none =>
      exfalso
      simp [hn] at hc
      have := congrArg World.nodes hc
      simp at this
      have h2 := congrArg (fun l => l[j]?) this
      simp [List.getElem?_map, h] at h2
      have h3 := mark_err_of_under j e n hu
      rw [h2] at h3
      exact h3 hn
  · refine ⟨World.mark j e n, by rw [hc]; simp [List.getElem?_map, h], mark_ctx j e n, ?_⟩
    exact mark_err_of_under j e n hu

/-! ## Later stages of a world -/

theorem stage_refl (w : World) : w.le w :=
  ⟨Int.le_refl _, fun _ n h => ⟨n, h, rfl, fun _ => rfl⟩⟩

theorem stage_trans {w1 w2 w3 : World} (h12 : w1.le w2) (h23 : w2.le w3) : w1.le w3 := by
  refine ⟨Int.le_trans h12.1 h23.1, ?_⟩
  intro i n h
  obtain ⟨n2, h2, hc2, he2⟩ := h12.2 i n h
  obtain ⟨n3, h3, hc3, he3⟩ := h23.2 i n2 h2
  refine ⟨n3, h3, hc3.trans hc2, ?_⟩
  intro hn
  have := he2 hn
  rw [he3 (by rw [this]; exact hn), this]

theorem stage_cancel (w : World) (j : Nat) (e : CtxErr) : w.le (w.cancel j e) := by
  refine ⟨by rw [cancel_now], ?_⟩
  intro i n h
  rcases cancel_get w j e i n h with h2 | h2
  · exact ⟨n, h2, rfl, fun _ => rfl⟩
  · exact ⟨_, h2, mark_ctx j e n, fun hn => mark_err_mono j e n hn⟩

theorem stage_push (w : World) (n : Node) : w.le (w.push n) := by
  refine ⟨Int.le_refl _, ?_⟩
  intro i m h
  refine ⟨m, ?_, rfl, fun _ => rfl⟩
  have hi : i < w.nodes.length := by
    rcases List.getElem?_eq_some.1 h with ⟨hi, _⟩
    exact hi
  show (w.nodes ++ [n])[i]? = some m
  rw [List.getElem?_append_left hi]
  exact h

theorem stage_fire (t : Time) (ns : List Node) (w : World) : w.le (World.fire t ns w) := by
  induction ns generalizing w with
  | nil => exact stage_refl w
  | cons n ns ih =>
    unfold World.fire
    split
    · split
      · exact stage_trans (stage_cancel _ _ _) (ih _)
      · exact ih _
    · exact ih _

theorem fire_now (t : Time) (ns : List Node) (w : World) : (World.fire t ns w).now = w.now := by
  induction ns generalizing w with
  | nil => rfl
  | cons n ns ih =>
    unfold World.fire
    split
    · split
      · rw [ih, cancel_now]
      · exact ih _
    · exact ih _

theorem fire_length (t : Time) (ns : List Node) (w : World) :
    (World.fire t ns w).nodes.length = w.nodes.length := by
  induction ns generalizing w with
  | nil => rfl
  | cons n ns ih =>
    unfold World.fire
    split
    · split
      · rw [ih, cancel_length]
      · exact ih _
    · exact ih _

theorem elapse_now (w : World) (dt : Nat) : (w.elapse dt).now = w.now + dt := by
  unfold World.elapse
  rw [fire_now]

theorem stage_elapse (w : World) (dt : Nat) : w.le (w.elapse dt) := by
  unfold World.elapse
  have h1 : w.le { w with now := w.now + dt } :=
    ⟨Int.le_add_of_nonneg_right (Int.ofNat_nonneg dt), fun _ n h => ⟨n, h, rfl, fun _ => rfl⟩⟩
  exact stage_trans h1 (stage_fire _ _ _)

theorem stage_call (f : CancelFunc) (w : World) : w.le (f.call w) :=
  stage_cancel w _ _

theorem stage_WithCancel (w : World) (p : Context) : w.le (context.WithCancel w p).2.2 :=
  stage_push w _

theorem stage_WithDeadline (w : World) (p : Option Context) (d : Time)
    (r : Context × CancelFunc × World) (h : context.WithDeadline w p d = .ok r) :
    w.le r.2.2 := by
  unfold context.WithDeadline at h
  cases p with
  | none => simp at h
  | some p =>
    simp only at h
    split at h
    · cases h; exact stage_WithCancel w p
    · split at h
      · cases h; exact stage_trans (stage_push w _) (stage_cancel _ _ _)
      · cases h; exact stage_push w _

theorem stage_step (w : World) (e : Event) : w.le (w.step e) := by
  cases e with
  | elapse dt => exact stage_elapse w dt
  | call f => exact stage_call f w
  | withTimeout p d =>
    simp only [World.step]
    split
    · split
      · rename_i c f w1 hk
        exact stage_WithDeadline w (some p) _ _ hk
      · exact stage_refl w
    · exact stage_refl w
  | withCancel p =>
    simp only [World.step]
    split
    · exact stage_WithCancel w p
    · exact stage_refl w

theorem stage_run (w : World) (es : List Event) : w.le (w.run es) := by
  induction es generalizing w with
  | nil => exact stage_refl w
  | cons e es ih => exact stage_trans (stage_step w e) (ih _)

theorem stage_runCleanups (fs : List CancelFunc) (w : World) : w.le (runCleanups fs w) := by
  induction fs generalizing w with
  | nil => exact stage_refl w
  | cons f fs ih => exact stage_trans (stage_call f w) (ih _)

/-- An allocated context stays allocated. -/
theorem has_of_le {w1 w2 : World} (h : w1.le w2) (c : Context) (hc : w1.has c = true) :
    w2.has c = true := by
  unfold World.has at hc ⊢
  cases hs : c.slot with
  | none => simp [hs] at hc
  | some i =>
    simp only [hs] at hc ⊢
    cases hi : w1.nodes[i]? with
    | none => simp [hi] at hc
    | some n =>
      simp only [hi] at hc
      obtain ⟨n2, h2, hc2, _⟩ := h.2 i n hi
      simp only [h2]
      rw [hc2]; exact hc

theorem live_of_le {w1 w2 : World} (h : w1.le w2) (c : Context) (hc : w1.live c = true) :
    w2.live c = true := by
  unfold World.live at hc ⊢
  rcases (Bool.or_eq_true_iff).1 hc with h1 | h1
  · simp [h1]
  · simp [has_of_le h c h1]

/-- Cancellation is final: an error once reported is reported for ever. -/
theorem Err_of_le {w1 w2 : World} (h : w1.le w2) (c : Context) (e : CtxErr)
    (hc : w1.Err c = some e) : w2.Err c = some e := by
  unfold World.Err at hc ⊢
  cases hs : c.slot with
  | none => simp [hs] at hc
  | some i =>
    simp only [hs] at hc ⊢
    cases hi : w1.nodes[i]? with
    | none => simp [hi] at hc
    | some n =>
      simp only [hi] at hc
      obtain ⟨n2, h2, _, he2⟩ := h.2 i n hi
      simp only [h2]
      rw [he2 (by rw [hc]; simp), hc]

theorem Err_none_of_le {w1 w2 : World} (h : w1.le w2) (c : Context)
    (hc : w2.Err c = none) : w1.Err c = none := by
  cases h1 : w1.Err c with
  | none => rfl
  | some e => rw [Err_of_le h c e h1] at hc; exact absurd hc (by simp)

/-! ## Allocated contexts -/

theorem has_iff (w : World) (c : Context) :
    w.has c = true ↔ ∃ i n, c.slot = some i ∧ w.nodes[i]? = some n ∧ n.ctx = c := by
  unfold World.has
  cases hs : c.slot with
  | none => simp
  | some i =>
    cases hi : w.nodes[i]? with
    | none => simp [hi]
    | some n => simp [hi]

theorem live_cases {w : World} {c : Context} (h : w.live c = true) :
    c = Context.background ∨ w.has c = true := by
  unfold World.live at h
  rcases (Bool.or_eq_true_iff).1 h with h1 | h1
  · left; simpa using h1
  · right; exact h1

theorem live_background (w : World) : w.live Context.background = true := by
  simp [World.live]

theorem live_of_has {w : World} {c : Context} (h : w.has c = true) : w.live c = true := by
  simp [World.live, h]

theorem Err_background (w : World) : w.Err Context.background = none := rfl

theorem Err_of_get {w : World} {c : Context} {i : Nat} {n : Node}
    (hs : c.slot = some i) (hi : w.nodes[i]? = some n) : w.Err c = n.err := by
  unfold World.Err
  simp [hs, hi]

theorem slot_lt_of_has {w : World} {c : Context} (h : w.has c = true) :
    ∃ i, c.slot = some i ∧ i < w.nodes.length := by
  obtain ⟨i, n, hs, hi, _⟩ := (has_iff w c).1 h
  exact ⟨i, hs, (List.getElem?_eq_some.1 hi).1⟩

theorem under_of_parent {c p : Context} (j : Nat) (hp : c.parent? = some p)
    (hu : p.under j = true) : c.under j = true := by
  cases c with
  | background => simp [Context.parent?] at hp
  | cancelCtx id q => simp [Context.parent?] at hp; subst hp; simp [Context.under, hu]
  | timerCtx id q d => simp [Context.parent?] at hp; subst hp; simp [Context.under, hu]

theorem under_self {c : Context} {j : Nat} (hs : c.slot = some j) : c.under j = true := by
  cases c with
  | background => simp [Context.slot] at hs
  | cancelCtx id q => simp [Context.slot] at hs; simp [Context.under, hs]
  | timerCtx id q d => simp [Context.slot] at hs; simp [Context.under, hs]

theorem under_cases {c : Context} {j : Nat} (hu : c.under j = true) :
    c.slot = some j ∨ ∃ p, c.parent? = some p ∧ p.under j = true := by
  cases c with
  | background => simp [Context.under] at hu
  | cancelCtx id q =>
    simp [Context.under] at hu
    rcases hu with h | h
    · left; simp [Context.slot, h]
    · right; exact ⟨q, rfl, h⟩
  | timerCtx id q d =>
    simp [Context.under] at hu
    rcases hu with h | h
    · left; simp [Context.slot, h]
    · right; exact ⟨q, rfl, h⟩

/-! ## `cancel` keeps a world well formed -/

theorem Tree_cancel {w : World} (h : w.Tree) (j : Nat) (e : CtxErr) : (w.cancel j e).Tree := by
  rcases cancel_cases w j e with hc | ⟨m, hm, hmn, hc⟩
  · rw [hc]; exact h
  · have hle := stage_cancel w j e
    have hget : ∀ (i : Nat) (n2 : Node), (w.cancel j e).nodes[i]? = some n2 →
        ∃ n, w.nodes[i]? = some n ∧ n2 = World.mark j e n := by
      intro i n2 h2
      rw [hc] at h2
      simp only [List.getElem?_map] at h2
      cases hi : w.nodes[i]? with
      | none => simp [hi] at h2
      | some n => simp [hi] at h2; exact ⟨n, rfl, h2.symm⟩
    constructor
    · intro i n2 h2
      obtain ⟨n, hn, rfl⟩ := hget i n2 h2
      rw [mark_ctx]; exact h.slot i n hn
    · intro i n2 p h2 hp
      obtain ⟨n, hn, rfl⟩ := hget i n2 h2
      rw [mark_ctx] at hp
      exact live_of_le hle p (h.anc i n p hn hp)
    · intro i n2 p h2 hp hE
      obtain ⟨n, hn, rfl⟩ := hget i n2 h2
      rw [mark_ctx] at hp
      by_cases hne : n.err = none
      · -- the parent was active before, so it is under `j`
        have hpl := h.anc i n p hn hp
        rcases live_cases hpl with h0 | h0
        · subst h0; exact absurd (Err_background _) hE
        · obtain ⟨k, mp, hs, hk, hmp⟩ := (has_iff w p).1 h0
          have hEw : w.Err p = none := by
            by_contra hcon
            exact h.down i n p hn hp hcon hne
          have hmpe : mp.err = none := by rw [← Err_of_get hs hk]; exact hEw
          have hk2 : (w.cancel j e).nodes[k]? = some (World.mark j e mp) := by
            rw [hc]; simp [List.getElem?_map, hk]
          rw [Err_of_get hs hk2] at hE
          have hup : p.under j = true := by
            by_contra hcon
            have hcon2 : mp.ctx.under j = false := by
              rw [hmp]; simpa using hcon
            rw [mark_of_not_under j e mp hcon2] at hE
            exact hE hmpe
          apply mark_err_of_under
          exact under_of_parent j hp hup
      · rw [mark_err_mono j e n hne]; exact hne

theorem Timely_cancel {w : World} (h : w.Timely) (j : Nat) (e : CtxErr) :
    (w.cancel j e).Timely := by
  intro i n2 d h2 hd hnow
  obtain ⟨n, hn, hor⟩ := cancel_get_inv w j e i n2 h2
  rw [cancel_now] at hnow
  rcases hor with rfl | rfl
  · exact h i _ d hn hd hnow
  · rw [mark_ctx] at hd
    have := h i n d hn hd hnow
    rw [mark_err_mono j e n this]; exact this

theorem WF_cancel {w : World} (h : w.WF) (j : Nat) (e : CtxErr) : (w.cancel j e).WF :=
  ⟨Tree_cancel h.tree j e, Timely_cancel h.timely j e⟩

theorem Tree_fire {w : World} (h : w.Tree) (t : Time) (ns : List Node) :
    (World.fire t ns w).Tree := by
  induction ns generalizing w with
  | nil => exact h
  | cons n ns ih =>
    unfold World.fire
    split
    · split
      · exact ih (Tree_cancel h _ _)
      · exact ih h
    · exact ih h

/-! ## Allocation keeps a world well formed -/

theorem push_get_lt (w : World) (n : Node) (i : Nat) (hi : i < w.nodes.length) :
    (w.push n).nodes[i]? = w.nodes[i]? := by
  show (w.nodes ++ [n])[i]? = w.nodes[i]?
  exact List.getElem?_append_left hi

theorem push_get_len (w : World) (n : Node) :
    (w.push n).nodes[w.nodes.length]? = some n := by
  show (w.nodes ++ [n])[w.nodes.length]? = some n
  simp

theorem push_get_inv (w : World) (n : Node) (i : Nat) (m : Node)
    (h : (w.push n).nodes[i]? = some m) :
    w.nodes[i]? = some m ∨ (i = w.nodes.length ∧ m = n) := by
  by_cases hi : i < w.nodes.length
  · left; rw [← push_get_lt w n i hi]; exact h
  · right
    have hlen : i < (w.push n).nodes.length := (List.getElem?_eq_some.1 h).1
    have hl2 : (w.push n).nodes.length = w.nodes.length + 1 := by
      show (w.nodes ++ [n]).length = _
      simp
    have hi2 : i = w.nodes.length := by omega
    refine ⟨hi2, ?_⟩
    rw [hi2, push_get_len] at h
    exact (Option.some.inj h).symm

theorem push_now (w : World) (n : Node) : (w.push n).now = w.now := rfl

theorem Err_push_of_live {w : World} {c : Context} (n : Node) (hl : w.live c = true) :
    (w.push n).Err c = w.Err c := by
  rcases live_cases hl with h0 | h0
  · subst h0; rfl
  · obtain ⟨i, hs, hi⟩ := slot_lt_of_has h0
    unfold World.Err
    simp only [hs]
    rw [push_get_lt w n i hi]

/-- Allocating a context derived from a context of the world, with the error
its parent has at that moment, keeps the shape of the world. -/
theorem Tree_push {w : World} (h : w.Tree) (c p : Context)
    (hs : c.slot = some w.nodes.length) (hp : c.parent? = some p) (hl : w.live p = true) :
    (w.push ⟨c, w.Err p⟩).Tree := by
  have hle := stage_push w ⟨c, w.Err p⟩
  constructor
  · intro i m hm
    rcases push_get_inv w _ i m hm with h1 | ⟨h1, h2⟩
    · exact h.slot i m h1
    · subst h1; subst h2; exact hs
  · intro i m q hm hq
    rcases push_get_inv w _ i m hm with h1 | ⟨h1, h2⟩
    · exact live_of_le hle q (h.anc i m q h1 hq)
    · subst h2
      simp only at hq
      rw [hp] at hq; cases hq
      exact live_of_le hle p hl
  · intro i m q hm hq hE
    rcases push_get_inv w _ i m hm with h1 | ⟨h1, h2⟩
    · have hql := h.anc i m q h1 hq
      rw [Err_push_of_live _ hql] at hE
      exact h.down i m q h1 hq hE
    · subst h2
      simp only at hq
      rw [hp] at hq; cases hq
      rw [Err_push_of_live _ hl] at hE
      exact hE

theorem Deadline_live_ne_background {c : Context} {d : Time} (h : c.Deadline = some d) :
    c ≠ Context.background := by
  intro hc; subst hc; simp [Context.Deadline] at h

/-- In a well-formed world a context whose deadline has been reached reports
an error. -/
theorem Err_of_due {w : World} (h : w.Timely) {c : Context} {d : Time}
    (hl : w.live c = true) (hd : c.Deadline = some d) (hnow : d ≤ w.now) :
    w.Err c ≠ none := by
  rcases live_cases hl with h0 | h0
  · exact absurd h0 (Deadline_live_ne_background hd)
  · obtain ⟨i, n, hs, hi, hn⟩ := (has_iff w c).1 h0
    rw [Err_of_get hs hi]
    exact h i n d hi (by rw [hn]; exact hd) hnow

theorem WF_WithCancel {w : World} (h : w.WF) (p : Context) (hl : w.live p = true) :
    (context.WithCancel w p).2.2.WF := by
  constructor
  · exact Tree_push h.tree _ p rfl rfl hl
  · intro i m d hm hd hnow
    rcases push_get_inv w _ i m hm with h1 | ⟨_, h2⟩
    · exact h.timely i m d h1 hd hnow
    · subst h2
      exact Err_of_due h.timely hl hd hnow

theorem WF_WithDeadline {w : World} (h : w.WF) (p : Context) (hl : w.live p = true)
    (d : Time) (r : Context × CancelFunc × World)
    (hr : context.WithDeadline w (some p) d = .ok r) : r.2.2.WF := by
  unfold context.WithDeadline at hr
  simp only at hr
  split at hr
  · cases hr; exact WF_WithCancel h p hl
  · have hT : (w.push ⟨Context.timerCtx w.nodes.length p d, w.Err p⟩).Tree :=
      Tree_push h.tree _ p rfl rfl hl
    split at hr
    · rename_i hdue
      cases hr
      refine ⟨Tree_cancel hT _ _, ?_⟩
      intro i m2 d2 hm2 hd2 hnow
      obtain ⟨m, hm, hor⟩ := cancel_get_inv _ _ _ i m2 hm2
      rcases push_get_inv w _ i m hm with h1 | ⟨h1, h2⟩
      · rw [cancel_now, push_now] at hnow
        have hctx : m2.ctx = m.ctx := by
          rcases hor with rfl | rfl
          · rfl
          · exact mark_ctx _ _ _
        have := h.timely i m d2 h1 (by rw [← hctx]; exact hd2) hnow
        rcases hor with rfl | rfl
        · exact this
        · rw [mark_err_mono _ _ _ this]; exact this
      · subst h1
        obtain ⟨m3, hm3, _, he3⟩ := cancel_sets _ w.nodes.length CtxErr.DeadlineExceeded m hm
          (by rw [h2]; rfl)
        rw [hm3] at hm2; cases hm2
        exact he3
    · rename_i hdue
      cases hr
      refine ⟨hT, ?_⟩
      intro i m d2 hm hd2 hnow
      rcases push_get_inv w _ i m hm with h1 | ⟨_, h2⟩
      · exact h.timely i m d2 h1 hd2 hnow
      · subst h2
        simp only [Context.Deadline] at hd2
        cases hd2
        rw [push_now] at hnow
        exact absurd (Int.sub_nonpos_of_le hnow) hdue

/-! ## The clock keeps a world well formed -/

/-- A timer of the list that is due has gone off after `fire`. -/
theorem fire_hits (t : Time) (ns : List Node) (w : World) (n0 : Node) (id : Nat)
    (p : Context) (d : Time) (hin : n0 ∈ ns) (hc : n0.ctx = Context.timerCtx id p d)
    (hd : d ≤ t) (m : Node) (hm : w.nodes[id]? = some m) (hs : m.ctx.slot = some id) :
    ∃ m2, (World.fire t ns w).nodes[id]? = some m2 ∧ m2.err ≠ none := by
  induction ns generalizing w m with
  | nil => simp at hin
  | cons n ns ih =>
    by_cases hhead : n0 = n
    · subst hhead
      unfold World.fire
      rw [hc]
      simp only [hd, if_true]
      obtain ⟨m2, hm2, _, he2⟩ := cancel_sets w id CtxErr.DeadlineExceeded m hm hs
      obtain ⟨m3, hm3, _, he3⟩ := (stage_fire t ns (w.cancel id CtxErr.DeadlineExceeded)).2 id m2 hm2
      exact ⟨m3, hm3, by rw [he3 he2]; exact he2⟩
    · have hin2 : n0 ∈ ns := by
        rcases List.mem_cons.1 hin with h1 | h1
        · exact absurd h1 hhead
        · exact h1
      unfold World.fire
      split
      · split
        · obtain ⟨m2, hm2, hc2, _⟩ := (stage_cancel w _ CtxErr.DeadlineExceeded).2 id m hm
          exact ih _ hin2 m2 hm2 (by rw [hc2]; exact hs)
        · exact ih w hin2 m hm hs
      · exact ih w hin2 m hm hs

theorem Tree_of_nodes {w1 w2 : World} (h : w1.Tree) (hn : w2.nodes = w1.nodes) : w2.Tree := by
  have hE : ∀ c, w2.Err c = w1.Err c := by
    intro c; unfold World.Err; rw [hn]
  have hL : ∀ c, w2.live c = w1.live c := by
    intro c; unfold World.live World.has; rw [hn]
  constructor
  · intro i n hi; rw [hn] at hi; exact h.slot i n hi
  · intro i n p hi hp; rw [hn] at hi; rw [hL]; exact h.anc i n p hi hp
  · intro i n p hi hp hE2; rw [hn] at hi; rw [hE] at hE2; exact h.down i n p hi hp hE2

theorem Tree_elapse {w : World} (h : w.Tree) (dt : Nat) : (w.elapse dt).Tree := by
  unfold World.elapse
  have h0 : World.Tree { w with now := w.now + dt } := Tree_of_nodes h rfl
  exact Tree_fire h0 _ _

theorem Timely_elapse {w : World} (h : w.Tree) (dt : Nat) : (w.elapse dt).Timely := by
  have hT := Tree_elapse h dt
  have hlen : (w.elapse dt).nodes.length = w.nodes.length := by
    unfold World.elapse; rw [fire_length]
  have hle := stage_elapse w dt
  have key : ∀ (c : Context) (i : Nat) (n2 : Node) (d : Time),
      (w.elapse dt).nodes[i]? = some n2 → n2.ctx = c → c.Deadline = some d →
      d ≤ w.now + dt → n2.err ≠ none := by
    intro c
    induction c with
    | background => intro i n2 d _ _ hd; simp [Context.Deadline] at hd
    | cancelCtx id p ih =>
      intro i n2 d h2 hc hd hnow
      have hpl := hT.anc i n2 p h2 (by rw [hc]; rfl)
      simp only [Context.Deadline] at hd
      rcases live_cases hpl with h0 | h0
      · exact absurd h0 (Deadline_live_ne_background hd)
      · obtain ⟨k, m, hs, hk, hm⟩ := (has_iff _ p).1 h0
        have := ih k m d hk hm hd hnow
        apply hT.down i n2 p h2 (by rw [hc]; rfl)
        rw [Err_of_get hs hk]; exact this
    | timerCtx id p d0 _ =>
      intro i n2 d h2 hc hd hnow
      simp only [Context.Deadline] at hd
      cases hd
      have hsl := hT.slot i n2 h2
      rw [hc] at hsl; simp only [Context.slot] at hsl; cases hsl
      have hi : id < w.nodes.length := by
        rw [← hlen]; exact (List.getElem?_eq_some.1 h2).1
      obtain ⟨n, hn⟩ : ∃ n, w.nodes[id]? = some n := ⟨w.nodes[id], List.getElem?_eq_getElem hi⟩
      obtain ⟨n3, hn3, hc3, _⟩ := hle.2 id n hn
      rw [h2] at hn3; cases hn3
      have hmem : n ∈ w.nodes := List.getElem?_mem hn
      have hnc : n.ctx = Context.timerCtx id p d0 := by rw [← hc3]; exact hc
      obtain ⟨m2, hm2, he2⟩ := fire_hits (w.now + dt) w.nodes { w with now := w.now + dt } n id p d0
        hmem hnc hnow n hn (by rw [hnc]; rfl)
      unfold World.elapse at h2
      rw [h2] at hm2; cases hm2
      exact he2
  intro i n2 d h2 hd hnow
  rw [elapse_now] at hnow
  exact key n2.ctx i n2 d h2 rfl hd hnow

theorem WF_elapse {w : World} (h : w.WF) (dt : Nat) : (w.elapse dt).WF :=
  ⟨Tree_elapse h.tree dt, Timely_elapse h.tree dt⟩

theorem WF_boot (t : Time) : (World.boot t).WF := by
  constructor
  · constructor
    · intro i n hi; simp [World.boot] at hi
    · intro i n p hi; simp [World.boot] at hi
    · intro i n p hi; simp [World.boot] at hi
  · intro i n d hi; simp [World.boot] at hi

theorem WF_step {w : World} (h : w.WF) (e : Event) : (w.step e).WF := by
  cases e with
  | elapse dt => exact WF_elapse h dt
  | call f => exact WF_cancel h _ _
  | withTimeout p d =>
    simp only [World.step]
    split
    · rename_i hl
      split
      · rename_i c f w1 hk
        exact WF_WithDeadline h p hl _ _ hk
      · exact h
    · exact h
  | withCancel p =>
    simp only [World.step]
    split
    · rename_i hl; exact WF_WithCancel h p hl
    · exact h

theorem WF_run {w : World} (h : w.WF) (es : List Event) : (w.run es).WF := by
  induction es generalizing w with
  | nil => exact h
  | cons e es ih => exact ih (WF_step h e)

/-! ## What `context.WithDeadline` returns -/

/-- The three ways `context.WithDeadline` returns for a non-nil parent. -/
theorem WithDeadline_cases (w : World) (p : Context) (d : Time) :
    (∃ cur, p.Deadline = some cur ∧ cur < d ∧
      context.WithDeadline w (some p) d =
        .ok (Context.cancelCtx w.nodes.length p, ⟨w.nodes.length⟩,
          w.push ⟨Context.cancelCtx w.nodes.length p, w.Err p⟩)) ∨
    ((∀ cur, p.Deadline = some cur → d ≤ cur) ∧ d ≤ w.now ∧
      context.WithDeadline w (some p) d =
        .ok (Context.timerCtx w.nodes.length p d, ⟨w.nodes.length⟩,
          (w.push ⟨Context.timerCtx w.nodes.length p d, w.Err p⟩).cancel w.nodes.length
            CtxErr.DeadlineExceeded)) ∨
    ((∀ cur, p.Deadline = some cur → d ≤ cur) ∧ w.now < d ∧
      context.WithDeadline w (some p) d =
        .ok (Context.timerCtx w.nodes.length p d, ⟨w.nodes.length⟩,
          w.push ⟨Context.timerCtx w.nodes.length p d, w.Err p⟩)) := by
  cases hp : p.Deadline with
  | none =>
    right
    by_cases hd : d ≤ w.now
    · left
      refine ⟨(by intro cur h; cases h), hd, ?_⟩
      have : d - w.now ≤ 0 := Int.sub_nonpos_of_le hd
      simp [context.WithDeadline, hp, this]
    · right
      have hlt : w.now < d := Int.lt_of_not_ge hd
      refine ⟨(by intro cur h; cases h), hlt, ?_⟩
      have : ¬ (d - w.now ≤ 0) := fun h => hd (Int.le_of_sub_nonpos h)
      simp [context.WithDeadline, hp, this]
  | some cur =>
    by_cases hc : cur < d
    · left
      exact ⟨cur, rfl, hc, by simp [context.WithDeadline, context.WithCancel, hp, hc]⟩
    · right
      have hle : ∀ c2, some cur = some c2 → d ≤ c2 := by
        intro c2 h; cases h; exact Int.not_lt.1 hc
      by_cases hd : d ≤ w.now
      · left
        refine ⟨hle, hd, ?_⟩
        have : d - w.now ≤ 0 := Int.sub_nonpos_of_le hd
        simp [context.WithDeadline, hp, hc, this]
      · right
        have hlt : w.now < d := Int.lt_of_not_ge hd
        refine ⟨hle, hlt, ?_⟩
        have : ¬ (d - w.now ≤ 0) := fun h => hd (Int.le_of_sub_nonpos h)
        simp [context.WithDeadline, hp, hc, this]

theorem has_push_new (w : World) (c : Context) (e : Option CtxErr)
    (hs : c.slot = some w.nodes.length) : (w.push ⟨c, e⟩).has c = true := by
  rw [has_iff]
  exact ⟨w.nodes.length, ⟨c, e⟩, hs, push_get_len w _, rfl⟩

theorem Err_push_new (w : World) (c : Context) (e : Option CtxErr)
    (hs : c.slot = some w.nodes.length) : (w.push ⟨c, e⟩).Err c = e := by
  rw [Err_of_get hs (push_get_len w _)]

theorem Err_cancel_new (w : World) (c : Context) (e0 : Option CtxErr) (e : CtxErr)
    (hs : c.slot = some w.nodes.length) :
    ((w.push ⟨c, e0⟩).cancel w.nodes.length e).Err c = some e ∨
    (e0 ≠ none ∧ ((w.push ⟨c, e0⟩).cancel w.nodes.length e).Err c = e0) := by
  have hget := push_get_len w ⟨c, e0⟩
  cases he0 : e0 with
  | some x =>
    right
    refine ⟨by simp, ?_⟩
    subst he0
    have h1 : (w.push ⟨c, some x⟩).Err c = some x := Err_push_new w c _ hs
    exact Err_of_le (stage_cancel _ _ _) c x h1
  | none =>
    left
    subst he0
    rcases cancel_cases (w.push ⟨c, none⟩) w.nodes.length e with hc | ⟨m, hm, hmn, hc⟩
    · exfalso
      obtain ⟨n2, hn2, _, he2⟩ := cancel_sets (w.push ⟨c, none⟩) w.nodes.length e _ hget hs
      rw [hc, hget] at hn2
      cases hn2
      exact he2 rfl
    · have h2 : ((w.push ⟨c, none⟩).cancel w.nodes.length e).nodes[w.nodes.length]? =
          some (World.mark w.nodes.length e ⟨c, none⟩) := by
        rw [hc]; simp [List.getElem?_map, hget]
      rw [Err_of_get hs h2]
      simp [World.mark, under_self hs]

theorem WithDeadline_fresh (w : World) (p : Context) (d : Time) :
    ∃ c w1, context.WithDeadline w (some p) d = .ok (c, ⟨w.nodes.length⟩, w1) ∧
      Fresh w p d c w1 := by
  rcases WithDeadline_cases w p d with ⟨cur, hcur, hlt, heq⟩ | ⟨hge, hnow, heq⟩ | ⟨hge, hnow, heq⟩
  · refine ⟨_, _, heq, ?_⟩
    exact {
      slot := rfl
      parent := rfl
      has := has_push_new w (Context.cancelCtx w.nodes.length p) _ rfl
      now := rfl
      le := stage_push w _
      deadline := ⟨cur, hcur, Int.le_of_lt hlt⟩
      sooner := by intro c2 h2 _; rw [← h2]; rfl
      later := by intro h2; exact absurd (h2 cur hcur) (Int.not_le.2 hlt)
      timer := by intro D h; simp [Context.timer?] at h
      exact := by intro h; rw [h] at hcur; cases hcur
      active := by
        intro h _
        rw [Err_push_new w (Context.cancelCtx w.nodes.length p) _ rfl]; exact h
      root := by intro h; subst h; simp [Context.Deadline] at hcur
      tree := fun h hl => Tree_push h (Context.cancelCtx w.nodes.length p) p rfl rfl hl
      wf := fun h hl => WF_WithDeadline h p hl d _ heq }
  · refine ⟨_, _, heq, ?_⟩
    exact {
      slot := rfl
      parent := rfl
      has := has_of_le (stage_cancel _ _ _) _
        (has_push_new w (Context.timerCtx w.nodes.length p d) _ rfl)
      now := by rw [cancel_now]; rfl
      le := stage_trans (stage_push w _) (stage_cancel _ _ _)
      deadline := ⟨d, rfl, Int.le_refl d⟩
      sooner := by intro c2 h2 h3; exact absurd (hge c2 h2) (Int.not_le.2 h3)
      later := fun _ => rfl
      timer := by intro D h; simp [Context.timer?] at h; exact h.symm
      exact := fun _ => rfl
      active := by intro _ h; exact absurd hnow (Int.not_le.2 h)
      root := by
        intro h; subst h
        rcases Err_cancel_new w (Context.timerCtx w.nodes.length Context.background d)
          (w.Err Context.background) CtxErr.DeadlineExceeded rfl with h1 | ⟨h1, _⟩
        · right; exact h1
        · exact absurd (Err_background w) h1
      tree := fun h hl =>
        Tree_cancel (Tree_push h (Context.timerCtx w.nodes.length p d) p rfl rfl hl) _ _
      wf := fun h hl => WF_WithDeadline h p hl d _ heq }
  · refine ⟨_, _, heq, ?_⟩
    exact {
      slot := rfl
      parent := rfl
      has := has_push_new w (Context.timerCtx w.nodes.length p d) _ rfl
      now := rfl
      le := stage_push w _
      deadline := ⟨d, rfl, Int.le_refl d⟩
      sooner := by intro c2 h2 h3; exact absurd (hge c2 h2) (Int.not_le.2 h3)
      later := fun _ => rfl
      timer := by intro D h; simp [Context.timer?] at h; exact h.symm
      exact := fun _ => rfl
      active := by
        intro h _
        rw [Err_push_new w (Context.timerCtx w.nodes.length p d) _ rfl]; exact h
      root := by
        intro h; subst h; left
        rw [Err_push_new w (Context.timerCtx w.nodes.length Context.background d) _ rfl]; rfl
      tree := fun h hl => Tree_push h (Context.timerCtx w.nodes.length p d) p rfl rfl hl
      wf := fun h hl => WF_WithDeadline h p hl d _ heq }

/-! ## What the constructors return -/

/-- The common body of the constructors, for a non-nil parent: the context
`context.WithTimeout` made is returned unless `Cleanup` panics, and the
callback handed to `Cleanup` is the cancel function of that context. -/
theorem derive_some {τ : Type} (h : Cleaner τ) (t : τ) (s : St) (p : Context) (d : Duration) :
    ∃ c w1, Fresh s.world p (s.world.now + d) c w1 ∧
      (derive h t s (some p) d).st = { s with world := w1 } ∧
      (derive h t s (some p) d).val =
        (h.Cleanup ⟨s.world.nodes.length⟩ t).map (fun _ => (c, ⟨s.world.nodes.length⟩)) ∧
      (∀ x, (derive h t s (some p) d).val = .ok x →
        h.Cleanup ⟨s.world.nodes.length⟩ t = .ok (derive h t s (some p) d).handle) := by
  obtain ⟨c, w1, heq, hf⟩ := WithDeadline_fresh s.world p (s.world.now + d)
  refine ⟨c, w1, hf, ?_⟩
  unfold derive context.WithTimeout
  rw [heq]
  simp only
  cases hC : h.Cleanup ⟨s.world.nodes.length⟩ t with
  | error e => simp [Except.map]
  | ok t1 => simp [Except.map]

theorem derive_none {τ : Type} (h : Cleaner τ) (t : τ) (s : St) (d : Duration) :
    derive h t s none d = ⟨.error "cannot create context from nil parent", t, s⟩ := rfl

theorem derive_pkg {τ : Type} (h : Cleaner τ) (t : τ) (s : St) (p : Option Context)
    (d : Duration) : (derive h t s p d).st.pkg = s.pkg := by
  cases p with
  | none => rfl
  | some p =>
    obtain ⟨c, w1, _, hst, _⟩ := derive_some h t s p d
    rw [hst]

/-- The body of `New` is the shared body, with the stored parent and the
stored timeout. -/
theorem New_eq {τ : Type} (h : Cleaner τ) (t : τ) (s : St) :
    New h t s = (derive h t s s.pkg.pkgCtx s.pkg.defaultTimeout).ctxOnly := by
  unfold New derive defaults Ret.ctxOnly
  simp only
  cases context.WithTimeout s.world s.pkg.pkgCtx s.pkg.defaultTimeout with
  | error e => rfl
  | ok x =>
    obtain ⟨ctx, cancel, w1⟩ := x
    simp only
    cases h.Cleanup cancel t <;> rfl

/-- The body of `WithTimeout` is the shared body, with the stored parent and
the timeout of the caller. -/
theorem WithTimeout_eq {τ : Type} (h : Cleaner τ) (t : τ) (d : Duration) (s : St) :
    WithTimeout h t d s = (derive h t s s.pkg.pkgCtx d).ctxOnly := by
  unfold WithTimeout derive defaults Ret.ctxOnly
  simp only
  cases context.WithTimeout s.world s.pkg.pkgCtx d with
  | error e => rfl
  | ok x =>
    obtain ⟨ctx, cancel, w1⟩ := x
    simp only
    cases h.Cleanup cancel t <;> rfl

/-- The body of `WithParent` is the shared body, with the parent of the caller
and the stored timeout. -/
theorem WithParent_eq {τ : Type} (h : Cleaner τ) (t : τ) (p : Option Context) (s : St) :
    WithParent h t p s = (derive h t s p s.pkg.defaultTimeout).ctxOnly := by
  unfold WithParent derive defaults Ret.ctxOnly
  simp only
  cases context.WithTimeout s.world p s.pkg.defaultTimeout with
  | error e => rfl
  | ok x =>
    obtain ⟨ctx, cancel, w1⟩ := x
    simp only
    cases h.Cleanup cancel t <;> rfl

/-- The body of `WithCancel` is the shared body, with the stored parent and the
stored timeout. -/
theorem WithCancel_eq {τ : Type} (h : Cleaner τ) (t : τ) (s : St) :
    WithCancel h t s = derive h t s s.pkg.pkgCtx s.pkg.defaultTimeout := by
  unfold WithCancel derive defaults
  rfl

/-! ## When a context stays active -/

/-- What one `cancel` does to the error of an allocated context: nothing, or
the context was active and under the cancelled object, and takes the error. -/
theorem Err_cancel_cases {w : World} {c : Context} (hh : w.has c = true) (j : Nat) (e : CtxErr) :
    ((w.cancel j e).Err c = w.Err c ∧ (w.cancel j e = w ∨ w.Err c ≠ none ∨ c.under j = false)) ∨
    (w.Err c = none ∧ c.under j = true ∧ (w.cancel j e).Err c = some e ∧
      (w.cancel j e).nodes = w.nodes.map (World.mark j e)) := by
  obtain ⟨i, n, hs, hi, hn⟩ := (has_iff w c).1 hh
  rcases cancel_cases w j e with hc | ⟨m, hm, hmn, hc⟩
  · left; rw [hc]; exact ⟨rfl, Or.inl rfl⟩
  · have h2 : (w.cancel j e).nodes[i]? = some (World.mark j e n) := by
      rw [hc]; simp [List.getElem?_map, hi]
    rw [Err_of_get hs h2, Err_of_get hs hi]
    by_cases hne : n.err = none
    · by_cases hu : c.under j = true
      · right
        refine ⟨hne, hu, ?_, by rw [hc]⟩
        simp [World.mark, hne, hn, hu]
      · left
        have hu2 : n.ctx.under j = false := by rw [hn]; simpa using hu
        rw [mark_of_not_under j e n hu2]
        exact ⟨rfl, Or.inr (Or.inr (by simpa using hu))⟩
    · left
      rw [mark_of_err j e n hne]
      exact ⟨rfl, Or.inr (Or.inl hne)⟩

/-- Cancelling another object leaves a context as it is, as long as the
context's parent is still active afterwards. -/
theorem active_cancel {w : World} (hw : w.Tree) {c p : Context} {id : Nat}
    (hh : w.has c = true) (hs : c.slot = some id) (hp : c.parent? = some p)
    (j : Nat) (e : CtxErr) (hj : j ≠ id) (hP : (w.cancel j e).Err p = none) :
    (w.cancel j e).Err c = w.Err c := by
  rcases Err_cancel_cases hh j e with ⟨h1, _⟩ | ⟨_, hu, _, hmap⟩
  · exact h1
  · exfalso
    rcases under_cases hu with h1 | ⟨q, hq, hqu⟩
    · rw [hs] at h1; cases h1; exact hj rfl
    · rw [hp] at hq; cases hq
      obtain ⟨i, n, _, hi, hn⟩ := (has_iff w c).1 hh
      have hpl := hw.anc i n p hi (by rw [hn]; exact hp)
      rcases live_cases hpl with h0 | h0
      · subst h0; simp [Context.under] at hqu
      · obtain ⟨k, m, hks, hk, hm⟩ := (has_iff w p).1 h0
        have h2 : (w.cancel j e).nodes[k]? = some (World.mark j e m) := by
          rw [hmap]; simp [List.getElem?_map, hk]
        rw [Err_of_get hks h2] at hP
        exact mark_err_of_under j e m (by rw [hm]; exact hqu) hP

theorem active_fire {c p : Context} {id : Nat} (hs : c.slot = some id)
    (hp : c.parent? = some p) (t : Time) (ht : ∀ D, c.timer? = some D → t < D)
    (ns : List Node) (w : World) (hw : w.Tree) (hh : w.has c = true)
    (hns : ∀ n ∈ ns, n.ctx.slot = some id → n.ctx = c)
    (hP : (World.fire t ns w).Err p = none) :
    (World.fire t ns w).Err c = w.Err c := by
  induction ns generalizing w with
  | nil => rfl
  | cons n ns ih =>
    have hns2 : ∀ n ∈ ns, n.ctx.slot = some id → n.ctx = c :=
      fun m hm => hns m (List.mem_cons_of_mem _ hm)
    unfold World.fire at hP ⊢
    cases hc : n.ctx with
    | background => simp only [hc] at hP ⊢; exact ih w hw hh hns2 hP
    | cancelCtx j q => simp only [hc] at hP ⊢; exact ih w hw hh hns2 hP
    | timerCtx j q d0 =>
      simp only [hc] at hP ⊢
      by_cases hd : d0 ≤ t
      · simp only [hd, if_true] at hP ⊢
        have hj : j ≠ id := by
          intro hji
          have := hns n (List.mem_cons_self _ _) (by rw [hc]; simp [Context.slot, hji])
          rw [hc] at this
          have h3 := ht d0 (by rw [← this]; rfl)
          exact absurd hd (Int.not_le.2 h3)
        have hP1 : (w.cancel j CtxErr.DeadlineExceeded).Err p = none :=
          Err_none_of_le (stage_fire t ns _) p hP
        rw [ih _ (Tree_cancel hw _ _) (has_of_le (stage_cancel _ _ _) c hh) hns2 hP]
        exact active_cancel hw hh hs hp j _ hj hP1
      · simp only [hd, if_false] at hP ⊢
        exact ih w hw hh hns2 hP

theorem Err_of_nodes {w1 w2 : World} (hn : w2.nodes = w1.nodes) (c : Context) :
    w2.Err c = w1.Err c := by
  unfold World.Err; rw [hn]

theorem has_of_nodes {w1 w2 : World} (hn : w2.nodes = w1.nodes) (c : Context) :
    w2.has c = w1.has c := by
  unfold World.has; rw [hn]

theorem active_elapse {w : World} (hw : w.Tree) {c p : Context} {id : Nat}
    (hh : w.has c = true) (hs : c.slot = some id) (hp : c.parent? = some p) (dt : Nat)
    (ht : ∀ D, c.timer? = some D → w.now + dt < D)
    (hP : (w.elapse dt).Err p = none) : (w.elapse dt).Err c = w.Err c := by
  unfold World.elapse at hP ⊢
  have h0 : World.Tree { w with now := w.now + dt } := Tree_of_nodes hw rfl
  have hns : ∀ n ∈ w.nodes, n.ctx.slot = some id → n.ctx = c := by
    intro n hn hsl
    obtain ⟨i, hi⟩ := List.getElem?_of_mem hn
    have h1 := hw.slot i n hi
    rw [hsl] at h1; cases h1
    obtain ⟨i2, n2, hs2, hi2, hn2⟩ := (has_iff w c).1 hh
    rw [hs] at hs2; cases hs2
    rw [hi] at hi2; cases hi2
    exact hn2
  rw [active_fire hs hp (w.now + dt) ht w.nodes _ h0 (by rw [has_of_nodes rfl]; exact hh) hns hP]
  exact Err_of_nodes rfl c

/-- One event that is not a call of the context's own cancel function leaves
the context as it is, as long as afterwards its parent is still active and the
deadline of its own timer is still ahead. -/
theorem active_step {w : World} (hw : w.WF) {c p : Context} {id : Nat}
    (hh : w.has c = true) (hs : c.slot = some id) (hp : c.parent? = some p)
    (e : Event) (he : e ≠ Event.call ⟨id⟩)
    (ht : ∀ D, c.timer? = some D → (w.step e).now < D)
    (hP : (w.step e).Err p = none) : (w.step e).Err c = w.Err c := by
  have hid : id < w.nodes.length := by
    obtain ⟨i, hi1, hi2⟩ := slot_lt_of_has hh
    rw [hs] at hi1; cases hi1; exact hi2
  cases e with
  | elapse dt =>
    simp only [World.step] at ht hP ⊢
    rw [elapse_now] at ht
    exact active_elapse hw.tree hh hs hp dt ht hP
  | call f =>
    simp only [World.step, CancelFunc.call] at hP ⊢
    have hj : f.target ≠ id := by
      intro h; apply he; cases f; simp at h; rw [h]
    exact active_cancel hw.tree hh hs hp _ _ hj hP
  | withTimeout q d =>
    simp only [World.step] at hP ⊢
    by_cases hl : w.live q = true
    · simp only [hl, if_true] at hP ⊢
      unfold context.WithTimeout at hP ⊢
      rcases WithDeadline_cases w q (w.now + d) with ⟨_, _, _, heq⟩ | ⟨_, _, heq⟩ | ⟨_, _, heq⟩
      · rw [heq] at hP ⊢
        exact Err_push_of_live _ (live_of_has hh)
      · rw [heq] at hP ⊢
        simp only at hP ⊢
        have hT := Tree_push hw.tree (Context.timerCtx w.nodes.length q (w.now + d)) q rfl rfl hl
        rw [active_cancel hT (has_of_le (stage_push w _) c hh) hs hp _ _ (Nat.ne_of_gt hid) hP]
        exact Err_push_of_live _ (live_of_has hh)
      · rw [heq] at hP ⊢
        exact Err_push_of_live _ (live_of_has hh)
    · simp only [hl] at hP ⊢
      rfl
  | withCancel q =>
    simp only [World.step] at hP ⊢
    by_cases hl : w.live q = true
    · simp only [hl, if_true] at hP ⊢
      exact Err_push_of_live _ (live_of_has hh)
    · simp only [hl] at hP ⊢
      rfl

/-- A context stays as it is through any sequence of events without a call of
its own cancel function, as long as at the end its parent is still active and
the deadline of its own timer is still ahead. -/
theorem active_run {c p : Context} {id : Nat} (hs : c.slot = some id)
    (hp : c.parent? = some p) (es : List Event) (w : World) (hw : w.WF)
    (hh : w.has c = true) (hes : ∀ e ∈ es, e ≠ Event.call ⟨id⟩)
    (ht : ∀ D, c.timer? = some D → (w.run es).now < D)
    (hP : (w.run es).Err p = none) : (w.run es).Err c = w.Err c := by
  induction es generalizing w with
  | nil => rfl
  | cons e es ih =>
    simp only [World.run] at ht hP ⊢
    have hle := stage_run (w.step e) es
    rw [ih (w.step e) (WF_step hw e) (has_of_le (stage_step w e) c hh)
      (fun x hx => hes x (List.mem_cons_of_mem _ hx)) ht hP]
    apply active_step hw hh hs hp e (hes e (List.mem_cons_self _ _))
    · intro D hD
      exact Int.lt_of_le_of_lt hle.1 (ht D hD)
    · exact Err_none_of_le hle p hP

/-! ## A context derived from `Background` ends by its own timer or its own cancel function -/

theorem root_cancel {w : World} {c : Context} {id : Nat} (hh : w.has c = true)
    (hs : c.slot = some id) (hp : c.parent? = some Context.background)
    (j : Nat) (e : CtxErr) (hje : j ≠ id ∨ e = CtxErr.DeadlineExceeded)
    (hQ : w.Err c = none ∨ w.Err c = some CtxErr.DeadlineExceeded) :
    (w.cancel j e).Err c = none ∨ (w.cancel j e).Err c = some CtxErr.DeadlineExceeded := by
  rcases Err_cancel_cases hh j e with ⟨h1, _⟩ | ⟨_, hu, h2, _⟩
  · rw [h1]; exact hQ
  · rcases under_cases hu with h3 | ⟨q, hq, hqu⟩
    · rw [hs] at h3; cases h3
      rcases hje with h4 | h4
      · exact absurd rfl h4
      · right; rw [h2, h4]
    · rw [hp] at hq; cases hq
      simp [Context.under] at hqu

theorem root_fire {c : Context} {id : Nat} (hs : c.slot = some id)
    (hp : c.parent? = some Context.background) (t : Time) (ns : List Node) (w : World)
    (hh : w.has c = true)
    (hQ : w.Err c = none ∨ w.Err c = some CtxErr.DeadlineExceeded) :
    (World.fire t ns w).Err c = none ∨
      (World.fire t ns w).Err c = some CtxErr.DeadlineExceeded := by
  induction ns generalizing w with
  | nil => exact hQ
  | cons n ns ih =>
    unfold World.fire
    split
    · split
      · exact ih _ (has_of_le (stage_cancel _ _ _) c hh)
          (root_cancel hh hs hp _ _ (Or.inr rfl) hQ)
      · exact ih w hh hQ
    · exact ih w hh hQ

theorem root_step {w : World} {c : Context} {id : Nat} (hh : w.has c = true)
    (hs : c.slot = some id) (hp : c.parent? = some Context.background)
    (e : Event) (he : e ≠ Event.call ⟨id⟩)
    (hQ : w.Err c = none ∨ w.Err c = some CtxErr.DeadlineExceeded) :
    (w.step e).Err c = none ∨ (w.step e).Err c = some CtxErr.DeadlineExceeded := by
  cases e with
  | elapse dt =>
    simp only [World.step, World.elapse]
    apply root_fire hs hp _ _ _ (by rw [has_of_nodes rfl]; exact hh)
    rw [Err_of_nodes rfl]; exact hQ
  | call f =>
    simp only [World.step, CancelFunc.call]
    have hj : f.target ≠ id := by
      intro h; apply he; cases f; simp at h; rw [h]
    exact root_cancel hh hs hp _ _ (Or.inl hj) hQ
  | withTimeout q d =>
    simp only [World.step]
    by_cases hl : w.live q = true
    · simp only [hl, if_true]
      unfold context.WithTimeout
      rcases WithDeadline_cases w q (w.now + d) with ⟨_, _, _, heq⟩ | ⟨_, _, heq⟩ | ⟨_, _, heq⟩
      · rw [heq]; simp only
        rw [Err_push_of_live _ (live_of_has hh)]; exact hQ
      · rw [heq]; simp only
        apply root_cancel (has_of_le (stage_push w _) c hh) hs hp _ _ (Or.inr rfl)
        rw [Err_push_of_live _ (live_of_has hh)]; exact hQ
      · rw [heq]; simp only
        rw [Err_push_of_live _ (live_of_has hh)]; exact hQ
    · simp only [hl]
      exact hQ
  | withCancel q =>
    simp only [World.step]
    by_cases hl : w.live q = true
    · simp only [hl, if_true]
      show (w.push _).Err c = none ∨ (w.push _).Err c = some CtxErr.DeadlineExceeded
      rw [Err_push_of_live _ (live_of_has hh)]; exact hQ
    · simp only [hl]
      exact hQ

theorem root_run {c : Context} {id : Nat} (hs : c.slot = some id)
    (hp : c.parent? = some Context.background) (es : List Event) (w : World)
    (hh : w.has c = true) (hes : ∀ e ∈ es, e ≠ Event.call ⟨id⟩)
    (hQ : w.Err c = none ∨ w.Err c = some CtxErr.DeadlineExceeded) :
    (w.run es).Err c = none ∨ (w.run es).Err c = some CtxErr.DeadlineExceeded := by
  induction es generalizing w with
  | nil => exact hQ
  | cons e es ih =>
    simp only [World.run]
    exact ih (w.step e) (has_of_le (stage_step w e) c hh)
      (fun x hx => hes x (List.mem_cons_of_mem _ hx))
      (root_step hh hs hp e (hes e (List.mem_cons_self _ _)) hQ)

/-! ## Calling a cancel function -/

/-- Calling the cancel function of an allocated context leaves it cancelled. -/
theorem call_cancels {w : World} {c : Context} (f : CancelFunc) (hh : w.has c = true)
    (hs : c.slot = some f.target) : (f.call w).Err c ≠ none := by
  obtain ⟨i, n, hs2, hi, hn⟩ := (has_iff w c).1 hh
  rw [hs] at hs2; cases hs2
  obtain ⟨n2, hn2, _, he2⟩ := cancel_sets w f.target CtxErr.Canceled n hi (by rw [hn]; exact hs)
  unfold CancelFunc.call
  rw [Err_of_get hs hn2]
  exact he2

theorem mark_mark (j : Nat) (e : CtxErr) (n : Node) :
    World.mark j e (World.mark j e n) = World.mark j e n := by
  by_cases hne : n.err = none
  · by_cases hu : n.ctx.under j = true
    · apply mark_of_err
      exact mark_err_of_under j e n hu
    · have hu2 : n.ctx.under j = false := by simpa using hu
      rw [mark_of_not_under j e n hu2, mark_of_not_under j e n hu2]
  · rw [mark_of_err j e n hne, mark_of_err j e n hne]

/-- Calling a cancel function twice is the same as calling it once, in every
world. -/
theorem call_call (f : CancelFunc) (w : World) : f.call (f.call w) = f.call w := by
  unfold CancelFunc.call
  rcases cancel_cases w f.target CtxErr.Canceled with hc | ⟨m, hm, hmn, hc⟩
  · rw [hc, hc]
  · rcases cancel_cases (w.cancel f.target CtxErr.Canceled) f.target CtxErr.Canceled with
      hc2 | ⟨m2, _, _, hc2⟩
    · exact hc2
    · rw [hc2, hc]
      simp only [List.map_map]
      congr 1
      apply List.map_congr_left
      intro n _
      exact mark_mark _ _ n

theorem runCleanups_cancels {w : World} {c : Context} (f : CancelFunc) (fs : List CancelFunc)
    (hf : f ∈ fs) (hh : w.has c = true) (hs : c.slot = some f.target) :
    (runCleanups fs w).Err c ≠ none := by
  induction fs generalizing w with
  | nil => simp at hf
  | cons g gs ih =>
    simp only [runCleanups]
    by_cases hg : f = g
    · subst hg
      have h1 := call_cancels f hh hs
      intro h2
      exact h1 (Err_none_of_le (stage_runCleanups gs _) c h2)
    · have hf2 : f ∈ gs := by
        rcases List.mem_cons.1 hf with h | h
        · exact absurd h hg
        · exact h
      exact ih hf2 (has_of_le (stage_call g w) c hh)

/-! ## The package-level variables along a sequence of calls -/

theorem SetDefaultTimeout_pkgCtx (t : Duration) (s : Pkg) :
    (SetDefaultTimeout t s).2.pkgCtx = s.pkgCtx := by
  unfold SetDefaultTimeout
  split <;> rfl

theorem SetDefaultTimeout_nonneg (t : Duration) (s : Pkg) (h : 0 ≤ s.defaultTimeout) :
    0 ≤ (SetDefaultTimeout t s).2.defaultTimeout := by
  unfold SetDefaultTimeout
  split
  · exact h
  · rename_i ht
    exact Int.not_lt.1 ht

theorem New_pkg {τ : Type} (h : Cleaner τ) (t : τ) (s : St) : (New h t s).st.pkg = s.pkg := by
  rw [New_eq]; exact derive_pkg h t s _ _

theorem WithTimeout_pkg {τ : Type} (h : Cleaner τ) (t : τ) (d : Duration) (s : St) :
    (WithTimeout h t d s).st.pkg = s.pkg := by
  rw [WithTimeout_eq]; exact derive_pkg h t s _ _

theorem WithParent_pkg {τ : Type} (h : Cleaner τ) (t : τ) (p : Option Context) (s : St) :
    (WithParent h t p s).st.pkg = s.pkg := by
  rw [WithParent_eq]; exact derive_pkg h t s _ _

theorem WithCancel_pkg {τ : Type} (h : Cleaner τ) (t : τ) (s : St) :
    (WithCancel h t s).st.pkg = s.pkg := by
  rw [WithCancel_eq]; exact derive_pkg h t s _ _

/-- Only `SetDefaultTimeout` writes the package-level variables. -/
theorem exec_pkg {τ : Type} (h : Cleaner τ) (x : Sys τ) (c : Call) (hc : c.isSet = false) :
    (exec h x c).st.pkg = x.st.pkg := by
  cases c with
  | SetDefaultTimeout t => simp [Call.isSet] at hc
  | New => exact New_pkg h _ _
  | WithTimeout d => exact WithTimeout_pkg h _ d _
  | WithParent p => exact WithParent_pkg h _ p _
  | WithCancel => exact WithCancel_pkg h _ _
  | env e => rfl

theorem execAll_pkg {τ : Type} (h : Cleaner τ) (x : Sys τ) (cs : List Call)
    (hcs : ∀ c ∈ cs, c.isSet = false) : (execAll h x cs).st.pkg = x.st.pkg := by
  induction cs generalizing x with
  | nil => rfl
  | cons c cs ih =>
    simp only [execAll]
    rw [ih (exec h x c) (fun y hy => hcs y (List.mem_cons_of_mem _ hy))]
    exact exec_pkg h x c (hcs c (List.mem_cons_self _ _))

/-- No call writes `pkgCtx`, and no call makes `defaultTimeout` negative. -/
theorem exec_inv {τ : Type} (h : Cleaner τ) (x : Sys τ) (c : Call)
    (hx : 0 ≤ x.st.pkg.defaultTimeout ∧ x.st.pkg.pkgCtx = some Context.background) :
    0 ≤ (exec h x c).st.pkg.defaultTimeout ∧
      (exec h x c).st.pkg.pkgCtx = some Context.background := by
  by_cases hc : c.isSet = false
  · rw [exec_pkg h x c hc]; exact hx
  · cases c with
    | SetDefaultTimeout t =>
      exact ⟨SetDefaultTimeout_nonneg t _ hx.1, by
        show (SetDefaultTimeout t x.st.pkg).2.pkgCtx = _
        rw [SetDefaultTimeout_pkgCtx]; exact hx.2⟩
    | New => simp [Call.isSet] at hc
    | WithTimeout d => simp [Call.isSet] at hc
    | WithParent p => simp [Call.isSet] at hc
    | WithCancel => simp [Call.isSet] at hc
    | env e => simp [Call.isSet] at hc

theorem execAll_inv {τ : Type} (h : Cleaner τ) (x : Sys τ) (cs : List Call)
    (hx : 0 ≤ x.st.pkg.defaultTimeout ∧ x.st.pkg.pkgCtx = some Context.background) :
    0 ≤ (execAll h x cs).st.pkg.defaultTimeout ∧
      (execAll h x cs).st.pkg.pkgCtx = some Context.background := by
  induction cs generalizing x with
  | nil => exact hx
  | cons c cs ih => exact ih (exec h x c) (exec_inv h x c hx)

theorem init_inv : 0 ≤ Pkg.init.defaultTimeout ∧ Pkg.init.pkgCtx = some Context.background := by
  refine ⟨?_, rfl⟩
  show (0 : Int) ≤ 3 * (60 * 1000000000)
  decide

/-- With `Background` as the stored parent, the common body returns exactly the
`timerCtx` with deadline `now + timeout`, unless `Cleanup` panics. -/
theorem derive_background {τ : Type} (h : Cleaner τ) (t : τ) (s : St) (d : Duration) :
    (derive h t s (some Context.background) d).val =
      (h.Cleanup ⟨s.world.nodes.length⟩ t).map (fun _ =>
        (Context.timerCtx s.world.nodes.length Context.background (s.world.now + d),
          (⟨s.world.nodes.length⟩ : CancelFunc))) := by
  obtain ⟨c, w1, hf, _, hval, _⟩ := derive_some h t s Context.background d
  rw [hval, hf.exact rfl]

theorem ctxOnly_val {τ : Type} (r : Ret (Context × CancelFunc) τ) (ctx : Context)
    (h : r.ctxOnly.val = .ok ctx) : ∃ f, r.val = .ok (ctx, f) := by
  unfold Ret.ctxOnly at h
  simp only at h
  cases hv : r.val with
  | error e => rw [hv] at h; simp [Except.map] at h
  | ok x =>
    rw [hv] at h
    simp [Except.map] at h
    exact ⟨x.2, by rw [← h]⟩

theorem map_ok_inv {α β ε : Type} (x : Except ε α) (g : α → β) (b : β)
    (h : x.map g = .ok b) : ∃ a, x = .ok a ∧ g a = b := by
  cases x with
  | error e => simp [Except.map] at h
  | ok a => simp [Except.map] at h; exact ⟨a, rfl, h⟩

/-! ## The setter -/

/-- C1: for every negative duration `t` and every stored state (base context,
default timeout), `SetDefaultTimeout(t)` ends in the panic
`"negative duration"` and leaves the package-level variables exactly as they
were, so that `defaults()` still returns the prior default; the rest of the
state (the world of contexts, the handle) is untouched as well. -/
theorem SetDefaultTimeout_negative_panics (t : Duration) (s : Pkg) (ht : t < 0) :
    (SetDefaultTimeout t s).1 = .error "negative duration" ∧
    (SetDefaultTimeout t s).2 = s ∧
    (SetDefaultTimeout t s).2.defaultTimeout = s.defaultTimeout ∧
    defaults (SetDefaultTimeout t s).2 = defaults s ∧
    ∀ (τ : Type) (h : Cleaner τ) (x : Sys τ), x.st.pkg = s →
      (exec h x (Call.SetDefaultTimeout t)).st = x.st ∧
      (exec h x (Call.SetDefaultTimeout t)).handle = x.handle := by
  have h2 : SetDefaultTimeout t s = (.error "negative duration", s) := by
    unfold SetDefaultTimeout
    simp [ht]
  refine ⟨by rw [h2], by rw [h2], by rw [h2], by rw [h2], ?_⟩
  intro τ h x hx
  subst hx
  refine ⟨?_, rfl⟩
  show ({ x.st with pkg := (SetDefaultTimeout t x.st.pkg).2 } : St) = x.st
  rw [h2]

theorem SetDefaultTimeout_negative_panics_witness :
    ((-1 : Duration) < 0) ∧
    (SetDefaultTimeout (-1) Pkg.init).1 = .error "negative duration" ∧
    (SetDefaultTimeout (-1) Pkg.init).2 = Pkg.init :=
  ⟨by decide,
    (SetDefaultTimeout_negative_panics (-1) Pkg.init (by decide)).1,
    (SetDefaultTimeout_negative_panics (-1) Pkg.init (by decide)).2.1⟩

/-- C8: the stored default timeout is never negative.  It is 3 minutes
(180000000000 ns) in the initial state, and after any finite sequence of calls
of `SetDefaultTimeout` (with any argument, the panic of a negative one being
recovered), `New`, `WithTimeout`, `WithParent`, `WithCancel` and events in the
world of contexts, from any handle state and any world, it is at least 0. -/
theorem defaultTimeout_never_negative {τ : Type} (h : Cleaner τ) (t : τ) (w : World)
    (cs : List Call) :
    Pkg.init.defaultTimeout = 3 * Minute ∧
    Pkg.init.defaultTimeout = 180000000000 ∧
    0 ≤ (execAll h ⟨t, ⟨Pkg.init, w⟩⟩ cs).st.pkg.defaultTimeout :=
  ⟨rfl, by decide, (execAll_inv h ⟨t, ⟨Pkg.init, w⟩⟩ cs init_inv).1⟩

/-! ## Which calls panic -/

/-- C9, as the claim states it, fails: with a handle whose `Cleanup` never
panics, in the initial state, `WithParent(t, nil)` panics. -/
theorem WithParent_nil_parent_panics :
    (∀ (f : CancelFunc) (t : List CancelFunc), recorder.Cleanup f t = .ok (f :: t)) ∧
    (WithParent recorder [] none ⟨Pkg.init, World.boot 0⟩).val =
      .error "cannot create context from nil parent" :=
  ⟨fun _ _ => rfl, rfl⟩

/-- C9, amended: in every state `x` reachable from the initial one by a
sequence of calls, `SetDefaultTimeout(t)` panics if and only if `t < 0` (zero
is accepted), `WithParent` panics on a nil parent, and `New`, `WithTimeout`,
`WithParent` and `WithCancel` return without a panic for every handle whose
`Cleanup` returns on the callback it is handed, every timeout argument and
every parent `p` that is a context of the standard `context` package:
`Background`, or a `cancelCtx` or `timerCtx` derived from one, which is what
`context.WithCancel`, `context.WithDeadline` and `context.WithTimeout` return.
A parent of another implementation, whose own methods may panic inside
`context.WithTimeout`, is not a value of `Context` and the statement says
nothing about it. -/
theorem panics_only_on_negative_timeout_or_nil_parent {τ : Type} (h : Cleaner τ) (t0 : τ) (w0 : World)
    (cs : List Call) (x : Sys τ) (t d : Duration) (p : Context)
    (hx : x = execAll h ⟨t0, ⟨Pkg.init, w0⟩⟩ cs) :
    ((SetDefaultTimeout t x.st.pkg).1 = .error "negative duration" ↔ t < 0) ∧
    ((SetDefaultTimeout t x.st.pkg).1 = .ok () ↔ 0 ≤ t) ∧
    (SetDefaultTimeout 0 x.st.pkg).1 = .ok () ∧
    (WithParent h x.handle none x.st).val = .error "cannot create context from nil parent" ∧
    ∀ t1, h.Cleanup ⟨x.st.world.nodes.length⟩ x.handle = .ok t1 →
      (∃ c, (New h x.handle x.st).val = .ok c) ∧
      (∃ c, (WithTimeout h x.handle d x.st).val = .ok c) ∧
      (∃ c, (WithParent h x.handle (some p) x.st).val = .ok c) ∧
      (∃ c, (WithCancel h x.handle x.st).val = .ok c) := by
  have hinv := execAll_inv h ⟨t0, ⟨Pkg.init, w0⟩⟩ cs init_inv
  rw [← hx] at hinv
  have hret : ∀ (q : Context) (d0 : Duration) (t1 : τ),
      h.Cleanup ⟨x.st.world.nodes.length⟩ x.handle = .ok t1 →
      ∃ c, (derive h x.handle x.st (some q) d0).val = .ok c := by
    intro q d0 t1 hC
    obtain ⟨c, w1, _, _, hval, _⟩ := derive_some h x.handle x.st q d0
    exact ⟨_, by rw [hval, hC]; rfl⟩
  have hctx : ∀ (r : Ret (Context × CancelFunc) τ), (∃ c, r.val = .ok c) →
      ∃ c, r.ctxOnly.val = .ok c := by
    intro r ⟨c, hc⟩
    exact ⟨c.1, by unfold Ret.ctxOnly; simp only; rw [hc]; rfl⟩
  refine ⟨?_, ?_, ?_, ?_, ?_⟩
  · unfold SetDefaultTimeout
    by_cases ht : t < 0
    · simp [ht]
    · simp [ht]
  · unfold SetDefaultTimeout
    by_cases ht : t < 0
    · simp [ht]
    · simp [ht]; exact Int.not_lt.1 ht
  · rfl
  · rfl
  · intro t1 hC
    refine ⟨?_, ?_, ?_, ?_⟩
    · rw [New_eq]
      simp only [hinv.2]
      exact hctx _ (hret _ _ t1 hC)
    · rw [WithTimeout_eq]
      simp only [hinv.2]
      exact hctx _ (hret _ _ t1 hC)
    · rw [WithParent_eq]
      exact hctx _ (hret _ _ t1 hC)
    · rw [WithCancel_eq]
      simp only [hinv.2]
      exact hret _ _ t1 hC

theorem panics_only_on_negative_timeout_or_nil_parent_witness :
    ((SetDefaultTimeout 0 (SetDefaultTimeout 7 Pkg.init).2).1 = .ok ()) ∧
    (∃ c, (WithTimeout recorder [] (-3) ⟨(SetDefaultTimeout 7 Pkg.init).2, World.boot 0⟩).val
      = .ok c) ∧
    (∃ c, (WithParent recorder [] (some Context.background)
      ⟨(SetDefaultTimeout 7 Pkg.init).2, World.boot 0⟩).val = .ok c) :=
  ⟨(panics_only_on_negative_timeout_or_nil_parent recorder [] (World.boot 0) [Call.SetDefaultTimeout 7] _
      0 (-3) Context.background rfl).2.2.1,
    ((panics_only_on_negative_timeout_or_nil_parent recorder [] (World.boot 0) [Call.SetDefaultTimeout 7] _
      0 (-3) Context.background rfl).2.2.2.2 _ rfl).2.1,
    ((panics_only_on_negative_timeout_or_nil_parent recorder [] (World.boot 0) [Call.SetDefaultTimeout 7] _
      0 (-3) Context.background rfl).2.2.2.2 _ rfl).2.2.1⟩

/-! ## The default timeout and the constructors -/

/-- What `New` returns when the stored parent is `Background`: the `timerCtx`
with deadline `now + defaultTimeout`, unless `Cleanup` panics. -/
theorem New_val {τ : Type} (h : Cleaner τ) (t : τ) (s : St)
    (hb : s.pkg.pkgCtx = some Context.background) :
    (New h t s).val = (h.Cleanup ⟨s.world.nodes.length⟩ t).map (fun _ =>
      Context.timerCtx s.world.nodes.length Context.background
        (s.world.now + s.pkg.defaultTimeout)) := by
  rw [New_eq]; unfold Ret.ctxOnly
  simp only [hb]
  rw [derive_background]
  cases h.Cleanup ⟨s.world.nodes.length⟩ t <;> rfl

/-- What `WithTimeout` returns when the stored parent is `Background`. -/
theorem WithTimeout_val {τ : Type} (h : Cleaner τ) (t : τ) (d : Duration) (s : St)
    (hb : s.pkg.pkgCtx = some Context.background) :
    (WithTimeout h t d s).val = (h.Cleanup ⟨s.world.nodes.length⟩ t).map (fun _ =>
      Context.timerCtx s.world.nodes.length Context.background (s.world.now + d)) := by
  rw [WithTimeout_eq]; unfold Ret.ctxOnly
  simp only [hb]
  rw [derive_background]
  cases h.Cleanup ⟨s.world.nodes.length⟩ t <;> rfl

/-- C2: let the stored parent be `Background` (as it is in every reachable
state) and the prior default be `d1 = s.pkg.defaultTimeout`.  For every
non-negative `d2`, `SetDefaultTimeout(d2)` returns; in the state `x` reached
after it and after any further calls `cs` none of which is
`SetDefaultTimeout`, `defaults()` returns `d2` as its timeout and `New`
returns (unless `Cleanup` panics) the context whose deadline is the time of
the call plus `d2`, which is not the time of the call plus `d1` when `d1`
differs from `d2`. -/
theorem New_uses_last_default {τ : Type} (h : Cleaner τ) (t : τ) (s : St) (d2 : Duration)
    (cs : List Call) (x : Sys τ) (hb : s.pkg.pkgCtx = some Context.background) (hd : 0 ≤ d2)
    (hcs : ∀ c ∈ cs, c.isSet = false)
    (hx : x = execAll h ⟨t, { s with pkg := (SetDefaultTimeout d2 s.pkg).2 }⟩ cs) :
    (SetDefaultTimeout d2 s.pkg).1 = .ok () ∧
    (defaults x.st.pkg).2 = d2 ∧
    (New h x.handle x.st).val =
      (h.Cleanup ⟨x.st.world.nodes.length⟩ x.handle).map (fun _ =>
        Context.timerCtx x.st.world.nodes.length Context.background (x.st.world.now + d2)) ∧
    ∀ ctx, (New h x.handle x.st).val = .ok ctx →
      ctx.Deadline = some (x.st.world.now + d2) ∧
      (d2 ≠ s.pkg.defaultTimeout →
        ctx.Deadline ≠ some (x.st.world.now + s.pkg.defaultTimeout)) := by
  subst hx
  have hset : SetDefaultTimeout d2 s.pkg = (.ok (), { s.pkg with defaultTimeout := d2 }) := by
    unfold SetDefaultTimeout
    simp [Int.not_lt.2 hd]
  have hpkg := execAll_pkg h ⟨t, { s with pkg := (SetDefaultTimeout d2 s.pkg).2 }⟩ cs hcs
  generalize execAll h ⟨t, { s with pkg := (SetDefaultTimeout d2 s.pkg).2 }⟩ cs = x at hpkg ⊢
  simp only [hset] at hpkg
  have hb2 : x.st.pkg.pkgCtx = some Context.background := by rw [hpkg]; exact hb
  have hd2 : x.st.pkg.defaultTimeout = d2 := by rw [hpkg]
  have hval := New_val h x.handle x.st hb2
  rw [hd2] at hval
  refine ⟨by rw [hset], by simp [defaults, hd2], hval, ?_⟩
  intro ctx hctx
  rw [hval] at hctx
  obtain ⟨_, _, hc⟩ := map_ok_inv _ _ _ hctx
  subst hc
  refine ⟨rfl, ?_⟩
  intro hne hcon
  simp only [Context.Deadline, Option.some.injEq] at hcon
  exact hne (Int.add_left_cancel hcon)

theorem New_uses_last_default_witness :
    (Pkg.init.pkgCtx = some Context.background) ∧ ((0 : Duration) ≤ 5) ∧
    (New recorder [] ⟨(SetDefaultTimeout 5 Pkg.init).2, World.boot 100⟩).val =
      .ok (Context.timerCtx 0 Context.background 105) :=
  ⟨rfl, by decide,
    (New_uses_last_default recorder [] ⟨Pkg.init, World.boot 100⟩ 5 [] _ rfl (by decide)
      (by simp) rfl).2.2.1⟩

/-- C7: `WithTimeout(handle, d)` writes no package-level variable, panic or
not: the stored default timeout and base context are the same after the call
as before.  The context it returns is derived from the stored base context;
with `Background` stored it is the context with deadline `now + d`, whatever
the stored default is, and a later `New` still returns the context whose
deadline is the time of that call plus the stored default. -/
theorem WithTimeout_leaves_defaults {τ : Type} (h : Cleaner τ) (t : τ) (d : Duration)
    (s : St) :
    (WithTimeout h t d s).st.pkg = s.pkg ∧
    defaults (WithTimeout h t d s).st.pkg = defaults s.pkg ∧
    (∀ ctx, (WithTimeout h t d s).val = .ok ctx → s.pkg.pkgCtx = ctx.parent?) ∧
    (s.pkg.pkgCtx = some Context.background →
      (WithTimeout h t d s).val = (h.Cleanup ⟨s.world.nodes.length⟩ t).map (fun _ =>
        Context.timerCtx s.world.nodes.length Context.background (s.world.now + d)) ∧
      (∀ ctx, (WithTimeout h t d s).val = .ok ctx →
        ctx.Deadline = some (s.world.now + d)) ∧
      ∀ ctx2, (New h (WithTimeout h t d s).handle (WithTimeout h t d s).st).val = .ok ctx2 →
        ctx2.Deadline =
          some ((WithTimeout h t d s).st.world.now + s.pkg.defaultTimeout)) := by
  have hpkg := WithTimeout_pkg h t d s
  refine ⟨hpkg, by rw [hpkg], ?_, ?_⟩
  · intro ctx hctx
    rw [WithTimeout_eq] at hctx
    cases hp : s.pkg.pkgCtx with
    | none =>
      rw [hp, derive_none] at hctx
      simp [Ret.ctxOnly, Except.map] at hctx
    | some p =>
      rw [hp] at hctx
      obtain ⟨c, w1, hf, _, hval, _⟩ := derive_some h t s p d
      obtain ⟨f, hf2⟩ := ctxOnly_val _ _ hctx
      rw [hval] at hf2
      obtain ⟨_, _, hc⟩ := map_ok_inv _ _ _ hf2
      cases hc
      exact hf.parent.symm
  · intro hb
    have hval := WithTimeout_val h t d s hb
    refine ⟨hval, ?_, ?_⟩
    · intro ctx hctx
      rw [hval] at hctx
      obtain ⟨_, _, hc⟩ := map_ok_inv _ _ _ hctx
      subst hc; rfl
    · intro ctx2 hctx2
      have hb2 : (WithTimeout h t d s).st.pkg.pkgCtx = some Context.background := by
        rw [hpkg]; exact hb
      rw [New_val h _ _ hb2, hpkg] at hctx2
      obtain ⟨_, _, hc⟩ := map_ok_inv _ _ _ hctx2
      subst hc; rfl

theorem WithTimeout_leaves_defaults_witness :
    (WithTimeout recorder [] 7 ⟨Pkg.init, World.boot 100⟩).st.pkg = Pkg.init ∧
    (Pkg.init.pkgCtx = some Context.background) ∧
    (WithTimeout recorder [] 7 ⟨Pkg.init, World.boot 100⟩).val =
      .ok (Context.timerCtx 0 Context.background 107) :=
  ⟨(WithTimeout_leaves_defaults recorder [] 7 ⟨Pkg.init, World.boot 100⟩).1, rfl,
    ((WithTimeout_leaves_defaults recorder [] 7 ⟨Pkg.init, World.boot 100⟩).2.2.2 rfl).1⟩

/-! ## Cleanup cancels the returned context -/

theorem derive_CleanupCancels {τ : Type} (h : Cleaner τ) (t : τ) (s : St)
    (P : Option Context) (d : Duration) : CleanupCancels h t (derive h t s P d).ctxOnly := by
  intro ctx hctx
  cases P with
  | none =>
    rw [derive_none] at hctx
    simp [Ret.ctxOnly, Except.map] at hctx
  | some p =>
    obtain ⟨c, w1, hf, hst, hval, hreg⟩ := derive_some h t s p d
    obtain ⟨f, hf2⟩ := ctxOnly_val _ _ hctx
    have hC := hreg _ hf2
    rw [hval] at hf2
    obtain ⟨_, _, hc⟩ := map_ok_inv _ _ _ hf2
    cases hc
    have hh : (derive h t s (some p) d).ctxOnly.st.world.has ctx = true := by
      show (derive h t s (some p) d).st.world.has ctx = true
      rw [hst]; exact hf.has
    refine ⟨⟨s.world.nodes.length⟩, hC, hf.slot, hh, ?_⟩
    intro es
    exact call_cancels _ (has_of_le (stage_run _ es) ctx hh) hf.slot

theorem derive_TeardownCancels (t : List CancelFunc) (s : St) (p : Context) (d : Duration) :
    TeardownCancels (derive recorder t s (some p) d).ctxOnly := by
  obtain ⟨c, w1, hf, hst, hval, hreg⟩ := derive_some recorder t s p d
  have hv : (derive recorder t s (some p) d).val = .ok (c, ⟨s.world.nodes.length⟩) := by
    rw [hval]; rfl
  have hh : (derive recorder t s (some p) d).handle = ⟨s.world.nodes.length⟩ :: t := by
    have hC : (Except.ok (⟨s.world.nodes.length⟩ :: t) : Except Fault (List CancelFunc)) =
        .ok (derive recorder t s (some p) d).handle := hreg _ hv
    exact (Except.ok.inj hC).symm
  refine ⟨c, by show Except.map _ _ = _; rw [hv]; rfl, ?_⟩
  intro es
  show (runCleanups (derive recorder t s (some p) d).handle
    ((derive recorder t s (some p) d).st.world.run es)).Err c ≠ none
  rw [hh, hst]
  exact runCleanups_cancels ⟨s.world.nodes.length⟩ _ (List.mem_cons_self _ _)
    (has_of_le (stage_run _ es) c hf.has) hf.slot

/-- C3: for each of the four constructors, every handle, every state and every
argument, the callback the call passes to `Cleanup` is the cancel function of
the context it returns, and calling it (at once or after any later events,
whether or not the deadline has passed or the context was cancelled before)
leaves that context cancelled.  On a handle in the manner of `testing.T`, with
a non-nil base context (and a non-nil parent for `WithParent`), each
constructor returns and the teardown of the handle leaves the returned context
cancelled. -/
theorem cleanup_cancels_returned_context {τ : Type} (h : Cleaner τ) (t : τ) (s : St)
    (d : Duration) (P : Option Context) (rt : List CancelFunc) (base p : Context) :
    CleanupCancels h t (New h t s) ∧
    CleanupCancels h t (WithTimeout h t d s) ∧
    CleanupCancels h t (WithParent h t P s) ∧
    CleanupCancels h t (WithCancel h t s).ctxOnly ∧
    (s.pkg.pkgCtx = some base →
      TeardownCancels (New recorder rt s) ∧
      TeardownCancels (WithTimeout recorder rt d s) ∧
      TeardownCancels (WithCancel recorder rt s).ctxOnly) ∧
    TeardownCancels (WithParent recorder rt (some p) s) := by
  refine ⟨by rw [New_eq]; exact derive_CleanupCancels h t s _ _,
    by rw [WithTimeout_eq]; exact derive_CleanupCancels h t s _ _,
    by rw [WithParent_eq]; exact derive_CleanupCancels h t s _ _,
    by rw [WithCancel_eq]; exact derive_CleanupCancels h t s _ _, ?_,
    by rw [WithParent_eq]; exact derive_TeardownCancels rt s p _⟩
  intro hb
  refine ⟨?_, ?_, ?_⟩
  · rw [New_eq]; simp only [hb]; exact derive_TeardownCancels rt s base _
  · rw [WithTimeout_eq]; simp only [hb]; exact derive_TeardownCancels rt s base _
  · rw [WithCancel_eq]; simp only [hb]; exact derive_TeardownCancels rt s base _

theorem cleanup_cancels_returned_context_witness :
    (Pkg.init.pkgCtx = some Context.background) ∧
    TeardownCancels (New recorder [] ⟨Pkg.init, World.boot 100⟩) ∧
    (New recorder [] ⟨Pkg.init, World.boot 100⟩).st.world.Err
      (Context.timerCtx 0 Context.background 180000000100) = none ∧
    (runCleanups (New recorder [] ⟨Pkg.init, World.boot 100⟩).handle
      (New recorder [] ⟨Pkg.init, World.boot 100⟩).st.world).Err
      (Context.timerCtx 0 Context.background 180000000100) = some CtxErr.Canceled :=
  ⟨rfl,
    ((cleanup_cancels_returned_context recorder [] ⟨Pkg.init, World.boot 100⟩ 0 none []
      Context.background Context.background).2.2.2.2.1 rfl).1,
    by decide, by decide⟩

/-! ## The cancel function of `WithCancel` -/

/-- Errors are final through a teardown. -/
theorem Err_runCleanups_of_set (fs : List CancelFunc) (w : World) (c : Context)
    (h : w.Err c ≠ none) : (runCleanups fs w).Err c = w.Err c := by
  cases he : w.Err c with
  | none => exact absurd he h
  | some e => exact Err_of_le (stage_runCleanups fs w) c e he

/-- C4: when `WithCancel` returns `(ctx, cancel)`, the callback it registered
on the handle is that same `cancel`, the cancel function of `ctx` (on a
`recorder` handle it is the callback on top of the stack).  Calling `cancel` a
second time changes nothing in any world, and after one call of `cancel`, at
any later stage, `ctx` is cancelled and stays in the very same state through a
second call and through the teardown of any stack of callbacks. -/
theorem WithCancel_cancel_idempotent {τ : Type} (h : Cleaner τ) (t : τ) (s : St)
    (rt : List CancelFunc) :
    (∀ ctx cancel, (WithCancel h t s).val = .ok (ctx, cancel) →
      h.Cleanup cancel t = .ok (WithCancel h t s).handle ∧
      ctx.slot = some cancel.target ∧
      (∀ w : World, cancel.call (cancel.call w) = cancel.call w) ∧
      ∀ es : List Event,
        (cancel.call ((WithCancel h t s).st.world.run es)).Err ctx ≠ none ∧
        (cancel.call (cancel.call ((WithCancel h t s).st.world.run es))).Err ctx =
          (cancel.call ((WithCancel h t s).st.world.run es)).Err ctx ∧
        ∀ fs : List CancelFunc,
          (runCleanups fs (cancel.call ((WithCancel h t s).st.world.run es))).Err ctx =
            (cancel.call ((WithCancel h t s).st.world.run es)).Err ctx) ∧
    (∀ ctx cancel, (WithCancel recorder rt s).val = .ok (ctx, cancel) →
      (WithCancel recorder rt s).handle = cancel :: rt ∧
      ∀ w : World, runCleanups (WithCancel recorder rt s).handle (cancel.call w) =
        runCleanups rt (cancel.call w)) ∧
    (∀ base, s.pkg.pkgCtx = some base → ∃ x, (WithCancel recorder rt s).val = .ok x) := by
  refine ⟨?_, ?_, ?_⟩
  · intro ctx cancel hv
    have hcc := derive_CleanupCancels h t s s.pkg.pkgCtx s.pkg.defaultTimeout
    rw [← WithCancel_eq] at hcc
    have hv2 : (WithCancel h t s).ctxOnly.val = .ok ctx := by
      show Except.map _ (WithCancel h t s).val = _
      rw [hv]; rfl
    obtain ⟨f, hC, hs, hh, hcall⟩ := hcc ctx hv2
    -- the registered callback is the returned one
    have hfc : f = cancel := by
      cases hp : s.pkg.pkgCtx with
      | none =>
        rw [WithCancel_eq] at hv
        simp only [hp] at hv
        rw [derive_none] at hv
        simp at hv
      | some p =>
        obtain ⟨c, w1, hf, _, hval, _⟩ := derive_some h t s p s.pkg.defaultTimeout
        rw [WithCancel_eq] at hv
        simp only [hp] at hv
        rw [hval] at hv
        obtain ⟨_, _, hc⟩ := map_ok_inv _ _ _ hv
        cases hc
        rw [hf.slot] at hs
        cases f
        simp at hs
        rw [← hs]
    subst hfc
    refine ⟨hC, hs, call_call f, ?_⟩
    intro es
    have h1 := hcall es
    refine ⟨h1, by rw [call_call], ?_⟩
    intro fs
    exact Err_runCleanups_of_set fs _ ctx h1
  · intro ctx cancel hv
    have hhandle : (WithCancel recorder rt s).handle = cancel :: rt := by
      cases hp : s.pkg.pkgCtx with
      | none =>
        rw [WithCancel_eq] at hv
        simp only [hp] at hv
        rw [derive_none] at hv
        simp at hv
      | some p =>
        obtain ⟨c, w1, hf, _, hval, hreg⟩ := derive_some recorder rt s p s.pkg.defaultTimeout
        rw [WithCancel_eq] at hv ⊢
        simp only [hp] at hv ⊢
        have hC := hreg _ hv
        rw [hval] at hv
        obtain ⟨_, _, hc⟩ := map_ok_inv _ _ _ hv
        cases hc
        have hC2 : (Except.ok (⟨s.world.nodes.length⟩ :: rt) :
            Except Fault (List CancelFunc)) =
            .ok (derive recorder rt s (some p) s.pkg.defaultTimeout).handle := hC
        exact (Except.ok.inj hC2).symm
    refine ⟨hhandle, ?_⟩
    intro w
    rw [hhandle]
    simp only [runCleanups]
    rw [call_call]
  · intro base hb
    obtain ⟨c, w1, _, _, hval, _⟩ := derive_some recorder rt s base s.pkg.defaultTimeout
    rw [WithCancel_eq]
    simp only [hb]
    exact ⟨_, by rw [hval]; rfl⟩

theorem WithCancel_cancel_idempotent_witness :
    (WithCancel recorder [] ⟨Pkg.init, World.boot 100⟩).val =
      .ok (Context.timerCtx 0 Context.background 180000000100, ⟨0⟩) ∧
    (WithCancel recorder [] ⟨Pkg.init, World.boot 100⟩).handle = [⟨0⟩] ∧
    (CancelFunc.call ⟨0⟩ (CancelFunc.call ⟨0⟩
      (WithCancel recorder [] ⟨Pkg.init, World.boot 100⟩).st.world)).Err
        (Context.timerCtx 0 Context.background 180000000100) =
      (CancelFunc.call ⟨0⟩ (WithCancel recorder [] ⟨Pkg.init, World.boot 100⟩).st.world).Err
        (Context.timerCtx 0 Context.background 180000000100) :=
  ⟨rfl,
    ((WithCancel_cancel_idempotent recorder [] ⟨Pkg.init, World.boot 100⟩ []).2.1
      (Context.timerCtx 0 Context.background 180000000100) ⟨0⟩ rfl).1,
    (((WithCancel_cancel_idempotent recorder [] ⟨Pkg.init, World.boot 100⟩ []).1
      (Context.timerCtx 0 Context.background 180000000100) ⟨0⟩ rfl).2.2.2 []).2.1⟩

/-! ## The life of a derived context -/

/-- The life of the context `ctx` that the common body of the constructors
returned for parent `p` and timeout `d` in a well-formed world: it is derived
from `p`; its deadline is `now + d` or the sooner deadline of `p`; at every
later stage it is cancelled if `p` is, and if `now + d` has been reached; and
it is still active if its own cancel function was not called, `p` is still
active, and `now + d` is still ahead. -/
theorem derive_life {τ : Type} (h : Cleaner τ) (t : τ) (s : St) (p : Context) (d : Duration)
    (hw : s.world.WF) (hl : s.world.live p = true) (ctx : Context) (f : CancelFunc)
    (hv : (derive h t s (some p) d).val = .ok (ctx, f)) :
    ctx.parent? = some p ∧ ctx.slot = some s.world.nodes.length ∧
    f = ⟨s.world.nodes.length⟩ ∧
    (∃ D, ctx.Deadline = some D ∧ D ≤ s.world.now + d) ∧
    (∀ cur, p.Deadline = some cur → cur < s.world.now + d → ctx.Deadline = some cur) ∧
    ((∀ cur, p.Deadline = some cur → s.world.now + d ≤ cur) →
      ctx.Deadline = some (s.world.now + d)) ∧
    (p.Deadline = none → ctx = Context.timerCtx s.world.nodes.length p (s.world.now + d)) ∧
    (p = Context.background → (derive h t s (some p) d).st.world.Err ctx = none ∨
      (derive h t s (some p) d).st.world.Err ctx = some CtxErr.DeadlineExceeded) ∧
    (derive h t s (some p) d).st.world.has ctx = true ∧
    ∀ es : List Event,
      (((derive h t s (some p) d).st.world.run es).Err p ≠ none →
        ((derive h t s (some p) d).st.world.run es).Err ctx ≠ none) ∧
      (s.world.now + d ≤ ((derive h t s (some p) d).st.world.run es).now →
        ((derive h t s (some p) d).st.world.run es).Err ctx ≠ none) ∧
      ((∀ e ∈ es, e ≠ Event.call ⟨s.world.nodes.length⟩) →
        ((derive h t s (some p) d).st.world.run es).Err p = none →
        ((derive h t s (some p) d).st.world.run es).now < s.world.now + d →
        ((derive h t s (some p) d).st.world.run es).Err ctx = none) := by
  obtain ⟨c, w1, hf, hst, hval, _⟩ := derive_some h t s p d
  rw [hval] at hv
  obtain ⟨_, _, hc⟩ := map_ok_inv _ _ _ hv
  cases hc
  have hw1 : (derive h t s (some p) d).st.world = w1 := by rw [hst]
  rw [hw1]
  have hWF1 : w1.WF := hf.wf hw hl
  refine ⟨hf.parent, hf.slot, rfl, hf.deadline, hf.sooner, hf.later, hf.exact, hf.root,
    hf.has, ?_⟩
  intro es
  have hWF2 : (w1.run es).WF := WF_run hWF1 es
  have hle2 := stage_run w1 es
  have hh2 : (w1.run es).has ctx = true := has_of_le hle2 ctx hf.has
  obtain ⟨i, n, hs, hi, hn⟩ := (has_iff _ ctx).1 hh2
  refine ⟨?_, ?_, ?_⟩
  · intro hE
    rw [Err_of_get hs hi]
    exact hWF2.tree.down i n p hi (by rw [hn]; exact hf.parent) hE
  · intro hnow
    obtain ⟨D, hD, hDle⟩ := hf.deadline
    exact Err_of_due hWF2.timely (live_of_has hh2) hD (Int.le_trans hDle hnow)
  · intro hes hP hnow
    have ht : ∀ D, ctx.timer? = some D → (w1.run es).now < D := by
      intro D hD; rw [hf.timer D hD]; exact hnow
    rw [active_run hf.slot hf.parent es w1 hWF1 hf.has hes ht hP]
    apply hf.active
    · exact Err_none_of_le (stage_trans hf.le hle2) p hP
    · have h1 : s.world.now ≤ (w1.run es).now := (stage_trans hf.le hle2).1
      exact Int.lt_of_le_of_lt h1 hnow

theorem derive_DeadlineCorrect {τ : Type} (h : Cleaner τ) (t : τ) (s : St) (d : Duration)
    (hw : s.world.WF) :
    DeadlineCorrect s.world d (derive h t s (some Context.background) d).ctxOnly := by
  intro ctx hctx
  obtain ⟨f, hv⟩ := ctxOnly_val _ _ hctx
  obtain ⟨hp, hs, _, _, _, _, hex, hroot, hh, hlife⟩ :=
    derive_life h t s Context.background d hw (live_background _) ctx f hv
  have hc := hex rfl
  show _ ∧ (∀ es : List Event, _ →
      (((derive h t s (some Context.background) d).st.world.run es).now < _ → _) ∧ _) ∧
    (∀ es : List Event, _ ≤ ((derive h t s (some Context.background) d).st.world.run es).now
      → _) ∧ (_ → (derive h t s (some Context.background) d).st.world.Err ctx = _)
  have hdone : ∀ es : List Event, (∀ e ∈ es, e ≠ Event.call ⟨s.world.nodes.length⟩) →
      s.world.now + d ≤ ((derive h t s (some Context.background) d).st.world.run es).now →
      ((derive h t s (some Context.background) d).st.world.run es).Err ctx =
        some CtxErr.DeadlineExceeded := by
    intro es hes hnow
    rcases root_run hs hp es _ hh hes (hroot rfl) with h1 | h1
    · exact absurd h1 ((hlife es).2.1 hnow)
    · exact h1
  refine ⟨by rw [hc]; rfl, ?_, fun es => (hlife es).2.1, ?_⟩
  · intro es hes
    exact ⟨fun hnow => (hlife es).2.2 hes (Err_background _) hnow, hdone es hes⟩
  · intro hd
    have := hdone [] (by simp) (by
      show s.world.now + d ≤ (derive h t s (some Context.background) d).st.world.now
      obtain ⟨c, w1, hf, hst, _, _⟩ := derive_some h t s Context.background d
      rw [hst]
      show s.world.now + d ≤ w1.now
      rw [hf.now, hd]
      simp)
    exact this

/-- C5: in a well-formed world, with `Background` as the stored parent (as it
is in every reachable state), for every timeout `d` (non-negative or not) the
context returned by `WithTimeout(handle, d)`, and the context returned by `New` when
`d` is the stored default, has its deadline at exactly the time of the call
plus `d`.  The deadline is part of the context value and nothing changes it.
Through any later events in which the cancel function of the context is not
called, the context is active while the clock is before the deadline and
reports `DeadlineExceeded` once the clock has reached it; whatever happens
later, it is cancelled once the clock has reached the deadline.  With a zero
timeout the context is cancelled when the constructor returns.  The
constructors return unless `Cleanup` panics. -/
theorem deadline_is_creation_plus_timeout {τ : Type} (h : Cleaner τ) (t : τ) (s : St)
    (d : Duration) (hw : s.world.WF) (hb : s.pkg.pkgCtx = some Context.background) :
    DeadlineCorrect s.world d (WithTimeout h t d s) ∧
    (s.pkg.defaultTimeout = d → DeadlineCorrect s.world d (New h t s)) ∧
    (WithTimeout h t d s).val = (h.Cleanup ⟨s.world.nodes.length⟩ t).map (fun _ =>
      Context.timerCtx s.world.nodes.length Context.background (s.world.now + d)) ∧
    (New h t s).val = (h.Cleanup ⟨s.world.nodes.length⟩ t).map (fun _ =>
      Context.timerCtx s.world.nodes.length Context.background
        (s.world.now + s.pkg.defaultTimeout)) := by
  refine ⟨?_, ?_, WithTimeout_val h t d s hb, New_val h t s hb⟩
  · rw [WithTimeout_eq]
    simp only [hb]
    exact derive_DeadlineCorrect h t s d hw
  · intro hdd
    rw [New_eq]
    simp only [hb, hdd]
    exact derive_DeadlineCorrect h t s d hw

theorem deadline_is_creation_plus_timeout_witness :
    ((World.boot 100).WF) ∧ (Pkg.init.pkgCtx = some Context.background) ∧
    (WithTimeout recorder [] 50 ⟨Pkg.init, World.boot 100⟩).val =
      .ok (Context.timerCtx 0 Context.background 150) ∧
    ((WithTimeout recorder [] 50 ⟨Pkg.init, World.boot 100⟩).st.world.run
      [Event.elapse 49]).Err (Context.timerCtx 0 Context.background 150) = none ∧
    ((WithTimeout recorder [] 50 ⟨Pkg.init, World.boot 100⟩).st.world.run
      [Event.elapse 49, Event.elapse 1]).Err (Context.timerCtx 0 Context.background 150) =
      some CtxErr.DeadlineExceeded :=
  ⟨WF_boot 100, rfl,
    (deadline_is_creation_plus_timeout recorder [] ⟨Pkg.init, World.boot 100⟩ 50
      (WF_boot 100) rfl).2.2.1,
    (((deadline_is_creation_plus_timeout recorder [] ⟨Pkg.init, World.boot 100⟩ 50
      (WF_boot 100) rfl).1 (Context.timerCtx 0 Context.background 150) rfl).2.1
      [Event.elapse 49] (by decide)).1 (by decide),
    (((deadline_is_creation_plus_timeout recorder [] ⟨Pkg.init, World.boot 100⟩ 50
      (WF_boot 100) rfl).1 (Context.timerCtx 0 Context.background 150) rfl).2.1
      [Event.elapse 49, Event.elapse 1] (by decide)).2 (by decide)⟩

/-! ## A caller-supplied parent -/

/-- C6: in a well-formed world, for every handle, every context `P` of the
world and every stored default timeout `d = s.pkg.defaultTimeout`, the call
`r = WithParent(handle, P)` returns unless `Cleanup` panics, and the context
it returns is derived from `P`,
whatever the stored base context is.  Its deadline is the time of the call
plus `d`, or the deadline of `P` when that is sooner.  The callback registered
on the handle is its cancel function.  At every later stage: it is cancelled
if `P` is cancelled; it is cancelled if the clock has reached the time of the
call plus `d`; it is cancelled once its cancel function has been called (as
the teardown of the test does); and if none of the three has happened (its
cancel function was not called, `P` is active, the clock is before the time of
the call plus `d`) it is still active. -/
theorem WithParent_inherits_parent {τ : Type} (h : Cleaner τ) (t : τ) (s : St) (P : Context)
    (r : Ret Context τ) (hw : s.world.WF) (hl : s.world.live P = true)
    (hr : r = WithParent h t (some P) s) :
    (∀ t1, h.Cleanup ⟨s.world.nodes.length⟩ t = .ok t1 → ∃ ctx, r.val = .ok ctx) ∧
    ∀ ctx, r.val = .ok ctx →
      ctx.parent? = some P ∧
      (∀ cur, P.Deadline = some cur → cur < s.world.now + s.pkg.defaultTimeout →
        ctx.Deadline = some cur) ∧
      ((∀ cur, P.Deadline = some cur → s.world.now + s.pkg.defaultTimeout ≤ cur) →
        ctx.Deadline = some (s.world.now + s.pkg.defaultTimeout)) ∧
      h.Cleanup ⟨s.world.nodes.length⟩ t = .ok r.handle ∧
      ctx.slot = some s.world.nodes.length ∧
      ∀ es : List Event,
        ((r.st.world.run es).Err P ≠ none → (r.st.world.run es).Err ctx ≠ none) ∧
        (s.world.now + s.pkg.defaultTimeout ≤ (r.st.world.run es).now →
          (r.st.world.run es).Err ctx ≠ none) ∧
        ((CancelFunc.call ⟨s.world.nodes.length⟩ (r.st.world.run es)).Err ctx ≠ none) ∧
        ((∀ e ∈ es, e ≠ Event.call ⟨s.world.nodes.length⟩) →
          (r.st.world.run es).Err P = none →
          (r.st.world.run es).now < s.world.now + s.pkg.defaultTimeout →
          (r.st.world.run es).Err ctx = none) := by
  subst hr
  obtain ⟨c, w1, hf, hst, hval, hreg⟩ := derive_some h t s P s.pkg.defaultTimeout
  rw [WithParent_eq]
  refine ⟨?_, ?_⟩
  · intro t1 hC
    refine ⟨c, ?_⟩
    show Except.map Prod.fst (derive h t s (some P) s.pkg.defaultTimeout).val = _
    rw [hval, hC]; rfl
  · intro ctx hctx
    obtain ⟨f, hv⟩ := ctxOnly_val (derive h t s (some P) s.pkg.defaultTimeout) ctx hctx
    obtain ⟨hp, hs, hfe, _, hsoon, hlate, _, _, hh, hlife⟩ :=
      derive_life h t s P s.pkg.defaultTimeout hw hl ctx f hv
    have hC := hreg _ hv
    refine ⟨hp, hsoon, hlate, hC, hs, ?_⟩
    intro es
    refine ⟨(hlife es).1, (hlife es).2.1, ?_, (hlife es).2.2⟩
    exact call_cancels ⟨s.world.nodes.length⟩ (has_of_le (stage_run _ es) ctx hh) hs

theorem WithParent_inherits_parent_witness :
    ((WithTimeout recorder [] 50 ⟨Pkg.init, World.boot 100⟩).st.world.WF) ∧
    ((WithTimeout recorder [] 50 ⟨Pkg.init, World.boot 100⟩).st.world.live
      (Context.timerCtx 0 Context.background 150) = true) ∧
    (Context.cancelCtx 1 (Context.timerCtx 0 Context.background 150)).parent? =
      some (Context.timerCtx 0 Context.background 150) ∧
    (((WithParent recorder [⟨0⟩] (some (Context.timerCtx 0 Context.background 150))
      (WithTimeout recorder [] 50 ⟨Pkg.init, World.boot 100⟩).st).st.world.run
        [Event.call ⟨0⟩]).Err
      (Context.cancelCtx 1 (Context.timerCtx 0 Context.background 150)) ≠ none) :=
  ⟨WF_step (WF_boot 100) (Event.withTimeout Context.background 50), by decide,
    ((WithParent_inherits_parent recorder [⟨0⟩]
      (WithTimeout recorder [] 50 ⟨Pkg.init, World.boot 100⟩).st
      (Context.timerCtx 0 Context.background 150) _
      (WF_step (WF_boot 100) (Event.withTimeout Context.background 50)) (by decide) rfl).2
      (Context.cancelCtx 1 (Context.timerCtx 0 Context.background 150)) rfl).1,
    (((WithParent_inherits_parent recorder [⟨0⟩]
      (WithTimeout recorder [] 50 ⟨Pkg.init, World.boot 100⟩).st
      (Context.timerCtx 0 Context.background 150) _
      (WF_step (WF_boot 100) (Event.withTimeout Context.background 50)) (by decide) rfl).2
      (Context.cancelCtx 1 (Context.timerCtx 0 Context.background 150)) rfl).2.2.2.2.2
      [Event.call ⟨0⟩]).1 (by decide)⟩

end testctx
